import Mathlib

/-!
Verification of the route-optimization core of the last-mile delivery game.

The JavaScript sources are shallowly embedded: node/edge records become
structures, module-level lookups built from the tour-setup JSON become
functions of an explicit `Setup` value, the module-level distance cache
becomes an explicit `Cache` value threaded through
`calculateNetworkDistance`, and JavaScript numbers become `ℚ` (the one
irrational ingredient, the Euclidean `Math.hypot` fallback, is abstracted
as an explicit function parameter, since none of the verified properties
depend on its values).  `undefined` results are modelled with `Option`.
A thrown `TypeError` (lookup of `.id` on `undefined` when a graph has no
depot node) is modelled by an `Option` result of the whole function.
While-loops whose termination is not structurally evident are given an
explicit fuel parameter; every theorem about them quantifies over the
fuel, and each fuel choice is documented at its definition.
-/

namespace LastMile

/-- JavaScript `<` on two possibly-infinite distances: `none` plays the
role of `Infinity` (and of `NaN` sums, which also compare `false`). -/
def qlt (x y : Option ℚ) : Bool :=
  match x, y with
  | some a, some b => decide (a < b)
  | some _, none => true
  | none, _ => false

/-- JavaScript `Set` insertion order: first occurrence wins. -/
def jsDedup (l : List String) : List String :=
  l.foldl (fun acc x => if x ∈ acc then acc else acc ++ [x]) []

/-- A node of the road network (`{ id, x, y, type }` in the JSON). -/
structure Node where
  id : String
  x : ℚ
  y : ℚ
  type : String
deriving DecidableEq

/-- An edge of the road network (`{ id, a, b, lengthKm?, blocked }`).
`lengthKm` is `none` when the JSON record omits the field. -/
structure Edge where
  id : String
  a : String
  b : String
  lengthKm : Option ℚ
  blocked : Bool
deriving DecidableEq

/-- The tour-setup object (`tourSetup.json`): nodes, edges and the
canvas scale constant. -/
structure Setup where
  nodes : List Node
  edges : List Edge
  scalePxPerKm : ℚ
deriving DecidableEq

/-- `nodesById[i]`: the JS lookup object is built by a `forEach` that
overwrites on duplicate ids, so the last node with a given id wins. -/
def nodesById (s : Setup) (i : String) : Option Node :=
  s.nodes.reverse.find? (fun n => n.id = i)

/-- `tourSetup.nodes.find(n => n.type === 'depot')`. -/
def depotOf (s : Setup) : Option Node :=
  s.nodes.find? (fun n => n.type = "depot")

/-- The ids of all address-type nodes, in node order. -/
def addressesOf (s : Setup) : List String :=
  (s.nodes.filter (fun n => n.type = "address")).map (fun n => n.id)

/-- `getCluster`: all node ids sharing the exact coordinates of the given
node; `[nodeId]` when the id is unknown. -/
def getCluster (s : Setup) (i : String) : List String :=
  match nodesById s i with
  | none => [i]
  | some n => (s.nodes.filter (fun m => m.x = n.x ∧ m.y = n.y)).map (fun m => m.id)

/-! ## Shortest-path engine (`findDetour`, pathfinding.js)

Dijkstra over the unblocked, non-excluded edges.  The JS `Map`s
`distances` and `previous` become functions with update-by-override;
`unvisited` becomes a list in node order.  The main `while` loop removes
one node from `unvisited` per non-breaking iteration, so running it with
fuel `unvisited.length` is exactly the JS behaviour.  The predecessor
chain walked during path reconstruction is acyclic and visits pairwise
distinct nodes, so fuel `nodes.length + 1` is exact there as well. -/

/-- One adjacency-list entry: `{ nodeId, edge, distance }`. -/
structure Nb where
  node : String
  edge : Edge
  dist : Option ℚ
deriving DecidableEq

/-- Build the weighted adjacency map from non-excluded, unblocked edges;
each edge is pushed under both endpoints, in edge-list order. -/
def buildGraph (edges : List Edge) (excluded : List String) : String → List Nb :=
  edges.foldl
    (fun g e =>
      if e.id ∈ excluded then g
      else if e.blocked then g
      else
        let g1 := fun x => if x = e.a then g x ++ [⟨e.b, e, e.lengthKm⟩] else g x
        fun x => if x = e.b then g1 x ++ [⟨e.a, e, e.lengthKm⟩] else g1 x)
    (fun _ => [])

/-- The "scan all unvisited for the minimum tentative distance" selection:
returns `(current, minDist)` starting from `(null, Infinity)`. -/
def selectMin (dist : String → Option ℚ) (unvisited : List String) :
    Option String × Option ℚ :=
  unvisited.foldl
    (fun acc n => if qlt (dist n) acc.2 then (some n, dist n) else acc)
    (none, none)

/-- Relaxation of one neighbor of `cur`; only nodes still in
`unvisited` are updated.  An absent `lengthKm` makes the JS sum `NaN`,
which never compares below the old distance, so such edges never
relax: the `none` weight case is dropped by `qlt`. -/
def relaxStep (unvisited : List String) (cur : String)
    (dp : (String → Option ℚ) × (String → Option (String × Edge))) (nb : Nb) :
    (String → Option ℚ) × (String → Option (String × Edge)) :=
  if nb.node ∈ unvisited then
    let newDist : Option ℚ :=
      match dp.1 cur, nb.dist with
      | some dc, some w => some (dc + w)
      | _, _ => none
    if qlt newDist (dp.1 nb.node) then
      (fun x => if x = nb.node then newDist else dp.1 x,
       fun x => if x = nb.node then some (cur, nb.edge) else dp.2 x)
    else dp
  else dp

/-- Relax all neighbors of `cur` (the inner `for` loop of the Dijkstra
iteration). -/
def relaxNbs (dist : String → Option ℚ) (prevm : String → Option (String × Edge))
    (unvisited : List String) (cur : String) (nbs : List Nb) :
    (String → Option ℚ) × (String → Option (String × Edge)) :=
  nbs.foldl (relaxStep unvisited cur) (dist, prevm)

/-- The Dijkstra main loop.  Exits replicate the JS breaks: empty
`unvisited`, no reachable unvisited node (`current === null`, which
coincides with `minDist === Infinity`), or the destination popped. -/
def dijkstraLoop (graph : String → List Nb) (endId : String) :
    Nat → (String → Option ℚ) → (String → Option (String × Edge)) → List String →
    (String → Option ℚ) × (String → Option (String × Edge))
  | 0, dist, prevm, _ => (dist, prevm)
  | _ + 1, dist, prevm, [] => (dist, prevm)
  | fuel + 1, dist, prevm, u :: us =>
    match selectMin dist (u :: us) with
    | (none, _) => (dist, prevm)
    | (some cur, _) =>
      if cur = endId then (dist, prevm)
      else
        let unvisited' := (u :: us).erase cur
        let dp := relaxNbs dist prevm unvisited' cur (graph cur)
        dijkstraLoop graph endId fuel dp.1 dp.2 unvisited'

/-- Path reconstruction: walk predecessor links from the end node,
prepending each edge (`path.unshift(edge)`). -/
def walkPath (prevm : String → Option (String × Edge)) :
    Nat → String → List Edge → List Edge
  | 0, _, acc => acc
  | fuel + 1, cur, acc =>
    match prevm cur with
    | none => acc
    | some pe => walkPath prevm fuel pe.1 (pe.2 :: acc)

/-- `findDetour(startNodeId, endNodeId, blockedEdgeIds)`: Dijkstra
between two nodes excluding the given edge ids and all blocked edges;
`none` models the JS `null` ("no route exists"). -/
def findDetour (s : Setup) (startId endId : String) (excluded : List String) :
    Option (List Edge) :=
  let graph := buildGraph s.edges excluded
  let unvisited := jsDedup (s.nodes.map (fun n => n.id))
  let dist0 : String → Option ℚ := fun i => if i = startId then some 0 else none
  let dp := dijkstraLoop graph endId unvisited.length dist0 (fun _ => none) unvisited
  match dp.2 endId with
  | none => none
  | some _ => some (walkPath dp.2 (s.nodes.length + 1) endId [])

/-! ## Network-distance service (`calculateNetworkDistance`, networkDistance.js)

The module-level `distanceCache` `Map` becomes an explicit `Cache` value
(`String → Option ℚ`, keyed by the concatenated strings the JS builds),
returned alongside the result.  The Euclidean fallback
(`euclideanDistance(...)/scalePxPerKm`, a floating `Math.hypot`) is
abstracted as the parameter `euclid`.  The result `none` models the JS
`Infinity` return; every other exit returns a finite number. -/

/-- The distance cache: a key such as `"A-B"` maps to a cached value. -/
def Cache : Type := String → Option ℚ

/-- The template-string cache key `` `${fromId}-${toId}` ``. -/
def cacheKey (a b : String) : String := a ++ "-" ++ b

/-- Store a value under both key orderings. -/
def cacheInsert (c : Cache) (k1 k2 : String) (v : ℚ) : Cache :=
  fun k => if k = k1 ∨ k = k2 then some v else c k

/-- The inner direct-edge scan: for each `toNode` of the cluster,
`edges.find(...)` returns the first edge joining the pair; it is used
only when unblocked, otherwise the scan moves to the next pair. -/
def findDirectInner (edges : List Edge) (f : String) : List String → Option Edge
  | [] => none
  | t :: ts =>
    match edges.find? (fun e => (e.a = f ∧ e.b = t) ∨ (e.b = f ∧ e.a = t)) with
    | some e => if e.blocked then findDirectInner edges f ts else some e
    | none => findDirectInner edges f ts

/-- The direct-edge search over all (fromCluster × toCluster) pairs. -/
def findDirect (edges : List Edge) : List String → List String → Option Edge
  | [], _ => none
  | f :: fs, ts =>
    match findDirectInner edges f ts with
    | some e => some e
    | none => findDirect edges fs ts

/-- `cluster.find(id => nodesById[id]?.type === 'junction') || cluster[0]`.
A found empty-string id is falsy in JS and falls through to `cluster[0]`;
`getCluster` never returns an empty list, so the `headD` default is dead
code. -/
def junctionRep (s : Setup) (cluster : List String) : String :=
  match cluster.find? (fun i =>
    match nodesById s i with
    | some n => n.type = "junction"
    | none => false) with
  | some j => if j = "" then cluster.headD "" else j
  | none => cluster.headD ""

/-- `path.reduce((sum, edge) => sum + (edge.lengthKm || 0), 0)`;
`edge.lengthKm || 0` agrees with `Option.getD 0` on rational lengths. -/
def sumLen (p : List Edge) : ℚ := p.foldl (fun acc e => acc + e.lengthKm.getD 0) 0

/-- `calculateNetworkDistance(fromId, toId)`: cache check under both key
orders, direct-edge short circuit, Dijkstra between junction
representatives, Euclidean fallback, `Infinity` (`none`) when an
endpoint id is unknown. -/
def calculateNetworkDistance (s : Setup) (euclid : Node → Node → ℚ) (c : Cache)
    (fromId toId : String) : Option ℚ × Cache :=
  let k1 := cacheKey fromId toId
  let k2 := cacheKey toId fromId
  match c k1 with
  | some v => (some v, c)
  | none =>
    match c k2 with
    | some v => (some v, c)
    | none =>
      let fromCluster := getCluster s fromId
      let toCluster := getCluster s toId
      match findDirect s.edges fromCluster toCluster with
      | some e =>
        let d := e.lengthKm.getD 0
        (some d, cacheInsert c k1 k2 d)
      | none =>
        let fb : Option ℚ × Cache :=
          match nodesById s fromId, nodesById s toId with
          | some fn, some tn =>
            let d := euclid fn tn / s.scalePxPerKm
            (some d, cacheInsert c k1 k2 d)
          | _, _ => (none, c)
        match findDetour s (junctionRep s fromCluster) (junctionRep s toCluster) [] with
        | some p =>
          if p.length > 0 then
            let d := sumLen p
            (some d, cacheInsert c k1 k2 d)
          else fb
        | none => fb

/-! ## Tour construction: nearest insertion (trafficModel.js)

The distance function `distKm(nodesById[p], nodesById[q])` is abstracted
as `d : String → String → ℚ` on ids.  `route.splice(bestI, 0, next)` is
`List.insertIdx`.  On an empty address list, `addrs.shift()` yields
`undefined`, so the returned route is the one-element list `[none]`; on
a non-empty list every route element is a real id, modelled `some`. -/

/-- The marginal length increase of inserting `next` at position `i`:
`d(prev,new) + d(new,next) − d(prev,next)`, the virtual neighbor at
either end being the depot. -/
def insCost (d : String → String → ℚ) (dep next : String) (route : List String)
    (i : Nat) : ℚ :=
  let prev := if i = 0 then dep else route.getD (i - 1) dep
  let nxt := if i = route.length then dep else route.getD i dep
  d prev next + d next nxt - d prev nxt

/-- The insertion-position scan: marginal increase minimized over all
positions, earliest position on ties; `bestInc` starts as `Infinity`
(`none`). -/
def bestInsertion (d : String → String → ℚ) (dep : String) (next : String)
    (route : List String) : Nat :=
  ((List.range (route.length + 1)).foldl
    (fun acc i =>
      if qlt (some (insCost d dep next route i)) acc.2
      then (i, some (insCost d dep next route i)) else acc)
    (0, (none : Option ℚ))).1

/-- The `while (addrs.length)` loop: shift the next address and splice
it in at the cheapest position. -/
def niLoop (d : String → String → ℚ) (dep : String) :
    List String → List String → List String
  | [], route => route
  | next :: rest, route =>
    niLoop d dep rest (route.insertIdx (bestInsertion d dep next route) next)

/-- `nearestInsertion(tourData)`: `none` models the `TypeError` thrown
when the graph has no depot node. -/
def nearestInsertion (s : Setup) (d : String → String → ℚ) :
    Option (List (Option String)) :=
  (depotOf s).map (fun dep =>
    match addressesOf s with
    | [] => [none]
    | a :: rest => (niLoop d dep.id rest [a]).map some)

/-! ## Tour construction: Clarke-Wright savings (clarkeWright.js)

`calculateNetworkDistance` calls are abstracted as
`d : String → String → ℚ` (the properties proved below hold for every
distance function, in particular for the cached network distance).  The
JS `routes` array becomes a `List (List String)` updated with
`List.set`; the `addressToRoute` object becomes a `String → Nat`
function updated by override (`forEach` assignment semantics: the last
write wins), with the JS `undefined` on unknown keys modelled by the
default `0` — the algorithm only ever queries keys it has written. -/

/-- One savings record `{ i, j, value }`. -/
structure Saving where
  i : String
  j : String
  value : ℚ
deriving DecidableEq

/-- The double loop `for i < n-1, for j in i+1..n-1` over address pairs,
in loop order. -/
def pairsAux : List String → List (String × String)
  | [] => []
  | x :: xs => xs.map (fun y => (x, y)) ++ pairsAux xs

/-- The greedy merge state: routes array and address-to-route-index map. -/
structure CWState where
  routes : List (List String)
  a2r : String → Nat

/-- `isRouteEnd(addr)`: the address sits at the head or tail of its route. -/
def isRouteEnd (st : CWState) (addr : String) : Bool :=
  let r := st.routes.getD (st.a2r addr) []
  r.head? = some addr ∨ r.getLast? = some addr

/-- `mergeRoutes(addr1, addr2)`: join the two routes in one of the four
endpoint orientations, blank the second slot, and repoint every member
of the merged route.  (The JS in-place `reverse()` mutations are
harmless there because the mutated arrays are immediately discarded.) -/
def mergeRoutes (st : CWState) (a1 a2 : String) : CWState :=
  let i1 := st.a2r a1
  let i2 := st.a2r a2
  if i1 = i2 then st
  else
    let r1 := st.routes.getD i1 []
    let r2 := st.routes.getD i2 []
    let newRoute? : Option (List String) :=
      if r1.getLast? = some a1 ∧ r2.head? = some a2 then some (r1 ++ r2)
      else if r1.head? = some a1 ∧ r2.getLast? = some a2 then some (r2 ++ r1)
      else if r1.getLast? = some a1 ∧ r2.getLast? = some a2 then some (r1 ++ r2.reverse)
      else if r1.head? = some a1 ∧ r2.head? = some a2 then some (r1.reverse ++ r2)
      else none
    match newRoute? with
    | none => st
    | some newRoute =>
      { routes := (st.routes.set i1 newRoute).set i2 [],
        a2r := newRoute.foldl (fun m addr => fun x => if x = addr then i1 else m x) st.a2r }

/-- One iteration of the greedy pass: merge when both addresses are
route ends of different routes. -/
def cwStep (st : CWState) (sv : Saving) : CWState :=
  if isRouteEnd st sv.i ∧ isRouteEnd st sv.j ∧ st.a2r sv.i ≠ st.a2r sv.j
  then mergeRoutes st sv.i sv.j else st

/-- The greedy pass over the sorted savings list. -/
def cwFold (sorted : List Saving) (init : CWState) : CWState :=
  sorted.foldl cwStep init

/-- The initial state: each address a singleton route, `addressToRoute`
written index by index. -/
def initCW (addresses : List String) : CWState :=
  { routes := addresses.map (fun a => [a]),
    a2r := addresses.enum.foldl (fun m p => fun x => if x = p.2 then p.1 else m x)
      (fun _ => 0) }

/-- `clarkeWrightSavings(tourData)`: savings computation, stable
descending sort (`sort((a,b) => b.value - a.value)`), greedy merges,
and the `routes.find(r => r.length > 0) || addresses` fallback.  `none`
models the `TypeError` thrown when the graph has no depot node. -/
def clarkeWrightSavings (s : Setup) (d : String → String → ℚ) :
    Option (List String) :=
  (depotOf s).map (fun dep =>
    let addresses := addressesOf s
    if addresses = [] then []
    else if addresses.length = 1 then addresses
    else
      let savings := (pairsAux addresses).map
        (fun p => (⟨p.1, p.2, d dep.id p.1 + d dep.id p.2 - d p.1 p.2⟩ : Saving))
      let sorted := savings.mergeSort (fun a b => decide (b.value ≤ a.value))
      let finalSt := cwFold sorted (initCW addresses)
      match finalSt.routes.find? (fun r => !r.isEmpty) with
      | some r => r
      | none => addresses)

/-! ## Tour improvement: 2-opt (twoOpt, part of trafficModel.js / twoOpt.js)

`calculateDistance(nodesById[p], nodesById[q])` is abstracted as
`d : String → String → ℚ` on ids.  The `while (foundImprovement)` loop
is given a fuel parameter: each improving sweep strictly decreases the
tour length over the finite set of permutations of the input, so the JS
loop terminates, and every theorem below holds for every fuel value.
The JS empty-route tour length is `NaN`; `tourLength` returns `0` there,
a case no claim depends on (all claims concern non-empty tours, and the
sweep only ever compares equal-length non-empty candidates). -/

/-- Sum of consecutive pairwise distances along a route. -/
def chain (d : String → String → ℚ) : List String → ℚ
  | [] => 0
  | [_] => 0
  | x :: y :: r => d x y + chain d (y :: r)

/-- Total tour length: depot to first, consecutive pairs, last to depot. -/
def tourLength (d : String → String → ℚ) (dep : String) : List String → ℚ
  | [] => 0
  | x :: xs => d dep x + chain d (x :: xs) + d ((x :: xs).getLastD x) dep

/-- The 2-opt candidate
`[...best.slice(0,i), ...best.slice(i,k+1).reverse(), ...best.slice(k+1)]`. -/
def candidateAt (best : List String) (i k : Nat) : List String :=
  best.take i ++ ((best.drop i).take (k + 1 - i)).reverse ++ best.drop (k + 1)

/-- The index pairs `(i,k)` with `i < k`, in the JS double-loop order. -/
def sweepPairs (n : Nat) : List (Nat × Nat) :=
  (List.range n).flatMap (fun i =>
    ((List.range n).map (fun k => (i, k))).filter (fun p => p.1 < p.2))

/-- One inner-loop step: adopt the candidate iff it is strictly shorter. -/
def sweepStep (d : String → String → ℚ) (dep : String)
    (st : List String × Bool) (p : Nat × Nat) : List String × Bool :=
  let cand := candidateAt st.1 p.1 p.2
  if tourLength d dep cand < tourLength d dep st.1 then (cand, true) else st

/-- One full double-loop sweep; adopted candidates replace the working
tour immediately and the sweep continues from the next index pair. -/
def sweep (d : String → String → ℚ) (dep : String) (best : List String) :
    List String × Bool :=
  (sweepPairs best.length).foldl (sweepStep d dep) (best, false)

/-- The outer `while (foundImprovement)` loop. -/
def twoOptLoop (d : String → String → ℚ) (dep : String) :
    Nat → List String → List String
  | 0, best => best
  | fuel + 1, best =>
    let sw := sweep d dep best
    if sw.2 then twoOptLoop d dep fuel sw.1 else sw.1

/-- `twoOpt(initialRoute)`: `none` models the `TypeError` thrown when
the graph has no depot node. -/
def twoOpt (s : Setup) (d : String → String → ℚ) (fuel : Nat)
    (route : List String) : Option (List String) :=
  (depotOf s).map (fun dep => twoOptLoop d dep.id fuel route)

/-- Modelled from the spec: "Full restart of the double loop after every
adoption (first-improvement strategy)" — scan the index pairs in order,
adopt the first strictly improving candidate, restart the whole double
loop, and stop when a complete scan finds no improvement.  This is the
behaviour the specification ascribes to `twoOpt` and is compared against
the source's sweep-continuing loop above. -/
def firstImprovement (d : String → String → ℚ) (dep : String)
    (best : List String) : Option (List String) :=
  (sweepPairs best.length).findSome? (fun p =>
    let cand := candidateAt best p.1 p.2
    if tourLength d dep cand < tourLength d dep best then some cand else none)

/-- Modelled from the spec: the outer loop of the restart-on-adoption
reading of the 2-opt search. -/
def twoOptRestartLoop (d : String → String → ℚ) (dep : String) :
    Nat → List String → List String
  | 0, best => best
  | fuel + 1, best =>
    match firstImprovement d dep best with
    | some b => twoOptRestartLoop d dep fuel b
    | none => best

/-! ## Tour improvement: Lin-Kernighan-style search (linKernighanHelsgaun.js)

`calculateNetworkDistance` is abstracted as `d : String → String → ℚ`.
The outer `while (improved && iteration < maxIterations)` loop is
structurally bounded by its own iteration counter, so it is embedded by
recursion on the remaining allowed iterations (no extra fuel is
introduced); `lkhLoop` also returns the number of passes executed, the
final value of the JS `iteration` counter.  Out-of-range JS index reads
(`undefined`) are modelled with `getD _ ""`; they never occur on the
indices the algorithm uses.  `tour.indexOf` is `List.findIdx?`. -/

/-- `apply2OptMove(tour, idx1, idx2)`: reverse `slice(i+1, j+1)` after
ordering the indices. -/
def apply2OptMove (tour : List String) (idx1 idx2 : Nat) : List String :=
  let i := min idx1 idx2
  let j := max idx1 idx2
  tour.take (i + 1) ++ ((tour.drop (i + 1)).take (j + 1 - (i + 1))).reverse ++
    tour.drop (j + 1)

/-- Ascending sort of the three break indices (`[a,b,c].sort((x,y)=>x-y)`). -/
def sort3 (a b c : Nat) : Nat × Nat × Nat :=
  if a ≤ b then
    if b ≤ c then (a, b, c)
    else if a ≤ c then (a, c, b) else (c, a, b)
  else
    if a ≤ c then (b, a, c)
    else if b ≤ c then (b, c, a) else (c, b, a)

/-- `apply3OptMove(tour, idx1, idx2, idx3)`: returns the first
reconnection pattern, `segment1 ++ reverse segment3 ++ segment2 ++
segment4` (the later entries of the JS `options` array are built from
already-mutated segments but are never returned). -/
def apply3OptMove (tour : List String) (idx1 idx2 idx3 : Nat) : List String :=
  let t := sort3 idx1 idx2 idx3
  let i := t.1
  let j := t.2.1
  let k := t.2.2
  let segment1 := tour.take (i + 1)
  let segment2 := (tour.drop (i + 1)).take (j + 1 - (i + 1))
  let segment3 := (tour.drop (j + 1)).take (k + 1 - (j + 1))
  let segment4 := tour.drop (k + 1)
  segment1 ++ segment3.reverse ++ segment2 ++ segment4

/-- `buildCandidateSets(tour, depotId, k)`: for each node the `k`
nearest other nodes by `d`, via a stable ascending sort. -/
def buildCandidateSets (d : String → String → ℚ) (tour : List String)
    (depotId : String) (k : Nat) : String → List String :=
  let allNodes := depotId :: tour
  allNodes.foldl
    (fun cs node =>
      let dists := (allNodes.filter (fun o => o ≠ node)).map (fun o => (o, d node o))
      let sorted := dists.mergeSort (fun a b => decide (a.2 ≤ b.2))
      let cands := (sorted.take k).map (fun p => p.1)
      fun x => if x = node then cands else cs x)
    (fun _ => [])

/-- The body of the `for (const t5 of candidateSets[t3])` loop of
`tryExtendedMove`, with the loop-invariant values (`t4` and the running
gain) as parameters. -/
def extCand (d : String → String → ℚ) (tour : List String) (idx1 idx3 : Nat)
    (currentGain : ℚ) (t4 : String) (t5 : String) : Option (List String) :=
  if t5 = t4 then none
  else
    match tour.findIdx? (fun x => x = t5) with
    | none => none
    | some t5Idx =>
      let t6 := tour.getD ((t5Idx + 1) % tour.length) ""
      let gain3opt := currentGain + d t5 t6 - d t4 t5
      if gain3opt > 1 / 1000 then some (apply3OptMove tour idx1 idx3 t5Idx)
      else none

/-- `tryExtendedMove`: scan `t3`'s candidate list for a profitable third
edge exchange; `apply3OptMove` always returns a (truthy) array, so a
positive chained gain always yields a move. -/
def tryExtendedMove (d : String → String → ℚ) (cs : String → List String)
    (tour : List String) (idx1 idx3 : Nat) (currentGain : ℚ) :
    Option (List String) :=
  (cs (tour.getD idx3 "")).findSome?
    (extCand d tour idx1 idx3 currentGain (tour.getD ((idx3 + 1) % tour.length) ""))

/-- The body of the `for (const t3 of candidateSets[t1])` loop of
`linKernighanMove`, with the loop-invariant values (`t1`, `t2`,
`t1Prev`, the length of the edge up for removal) as parameters. -/
def lkCand (d : String → String → ℚ) (cs : String → List String)
    (tour : List String) (startIdx : Nat) (t1 t2 t1Prev : String)
    (t3 : String) : Option (List String) :=
  if t3 = t2 ∨ t3 = t1Prev then none
  else
    let gain := d t1 t2 - d t1 t3
    if gain ≤ 0 then none
    else
      match tour.findIdx? (fun x => x = t3) with
      | none => none
      | some t3Idx =>
        let t4 := tour.getD ((t3Idx + 1) % tour.length) ""
        let gain2opt := gain - d t3 t4 + d t2 t4
        if gain2opt > 1 / 1000 then some (apply2OptMove tour startIdx t3Idx)
        else tryExtendedMove d cs tour startIdx t3Idx gain

/-- `linKernighanMove(tour, startIdx, candidateSets, depotId)`: the
2-opt closure over `t1`'s candidate list, extended to the 3-opt attempt
when the closure fails; `none` models `{ improved: false }`. -/
def linKernighanMove (d : String → String → ℚ) (cs : String → List String)
    (depotId : String) (tour : List String) (startIdx : Nat) :
    Option (List String) :=
  let t1 := tour.getD startIdx ""
  let t2 := tour.getD ((startIdx + 1) % tour.length) ""
  let t1Prev := if startIdx = 0 then depotId else tour.getD (startIdx - 1) ""
  (cs t1).findSome? (lkCand d cs tour startIdx t1 t2 t1Prev)

/-- JS `Set.add`: append unless already present. -/
def dlInsert (dl : List String) (t : String) : List String :=
  if t ∈ dl then dl else dl ++ [t]

/-- The `for (let i = 0; i < tour.length; i++)` scan of one outer pass:
skip don't-look nodes, return on the first accepted move (clearing the
don't-look set), otherwise mark the node and continue. -/
def lkhPassAux (d : String → String → ℚ) (cs : String → List String)
    (depotId : String) (tour : List String) :
    List Nat → List String → List String × List String × Bool
  | [], dl => (tour, dl, false)
  | i :: rest, dl =>
    let t1 := tour.getD i ""
    if t1 ∈ dl then lkhPassAux d cs depotId tour rest dl
    else
      match linKernighanMove d cs depotId tour i with
      | some newTour => (newTour, [], true)
      | none => lkhPassAux d cs depotId tour rest (dlInsert dl t1)

/-- One outer pass over all tour positions. -/
def lkhPass (d : String → String → ℚ) (cs : String → List String)
    (depotId : String) (tour : List String) (dl : List String) :
    List String × List String × Bool :=
  lkhPassAux d cs depotId tour (List.range tour.length) dl

/-- The bounded outer loop; the second component counts the passes
executed (the final value of the JS `iteration` counter). -/
def lkhLoop (d : String → String → ℚ) (cs : String → List String)
    (depotId : String) : Nat → List String → List String → List String × Nat
  | 0, tour, _ => (tour, 0)
  | fuel + 1, tour, dl =>
    let pr := lkhPass d cs depotId tour dl
    if pr.2.2 then
      let r := lkhLoop d cs depotId fuel pr.1 pr.2.1
      (r.1, r.2 + 1)
    else (pr.1, 1)

/-- `linKernighanHelsgaun(initialTour, depotId)` with its hard
`maxIterations = 100` cap. -/
def linKernighanHelsgaun (d : String → String → ℚ) (initialTour : List String)
    (depotId : String) : List String :=
  let cs := buildCandidateSets d initialTour depotId 10
  (lkhLoop d cs depotId 100 initialTour []).1

/-! ## Route materialization / detour engine (`replaceBlockedEdges`)

The repository carries two variants of pathfinding.js: a simple one that
walks the planned edges and replaces blocked edges with detours, and a
bridging one that additionally infers the start node from the first edge
and repairs discontinuities (bridging to the nearer endpoint, or
skipping the edge when no bridge exists).  Both are embedded; they share
`findDetour`.  The first `Setup` argument stands for the module-level
`tourSetup` import consumed by `findDetour`; the second for the
`tourData` parameter (the callers pass the same object for both). -/

/-- An output edge: the JS spread `{ ...edge, isDetour }`. -/
structure TaggedEdge where
  edge : Edge
  isDetour : Bool
deriving DecidableEq

/-- `{ originalEdge, detourEdges, startNode, endNode }`. -/
structure DetourRecord where
  originalEdge : Edge
  detourEdges : List Edge
  startNode : String
  endNode : String
deriving DecidableEq

/-- The walk state: current position, emitted edges, detour records. -/
structure RouteState where
  current : String
  resultEdges : List TaggedEdge
  detours : List DetourRecord
deriving DecidableEq

/-- The next endpoint of an edge relative to the current position; the
simple variant falls back to `edge.a` on a discontinuity. -/
def jsNextNode (cur : String) (e : Edge) : String :=
  if e.a = cur then e.b else if e.b = cur then e.a else e.a

/-- The blocked/unblocked emission common to both variants: splice a
non-empty detour tagged `isDetour: true` and record it, else emit the
edge itself tagged `isDetour: false`. -/
def blockedPhase (s : Setup) (st : RouteState) (e : Edge) (nextNode : String) :
    RouteState :=
  if e.blocked then
    match findDetour s st.current nextNode [e.id] with
    | some detourPath =>
      if detourPath.length > 0 then
        { current := nextNode,
          resultEdges := st.resultEdges ++ detourPath.map (fun de => ⟨de, true⟩),
          detours := st.detours ++ [⟨e, detourPath, st.current, nextNode⟩] }
      else
        { current := nextNode,
          resultEdges := st.resultEdges ++ [⟨e, false⟩],
          detours := st.detours }
    | none =>
      { current := nextNode,
        resultEdges := st.resultEdges ++ [⟨e, false⟩],
        detours := st.detours }
  else
    { current := nextNode,
      resultEdges := st.resultEdges ++ [⟨e, false⟩],
      detours := st.detours }

/-- One step of the simple variant's walk. -/
def stepSimple (s : Setup) (st : RouteState) (e : Edge) : RouteState :=
  blockedPhase s st e (jsNextNode st.current e)

/-- The simple `replaceBlockedEdges(edges, tourData)`; `none` models the
`TypeError` thrown when `tourData` has no depot node. -/
def replaceBlockedEdgesSimple (s : Setup) (tourData : Setup) (edges : List Edge) :
    Option (List TaggedEdge × List DetourRecord) :=
  (depotOf tourData).map (fun dep =>
    let final := edges.foldl (stepSimple s) ⟨dep.id, [], []⟩
    (final.resultEdges, final.detours))

/-- `e.lengthKm || 1` in the bridging cost comparison: JS falsiness
sends both an absent and a zero length to `1`. -/
def jsOr1 (o : Option ℚ) : ℚ :=
  match o with
  | some v => if v = 0 then 1 else v
  | none => 1

/-- Emit a bridge path (tagged `isDetour: false`), move to the near
endpoint of the offending edge, then run the blocked/unblocked phase
toward the far endpoint. -/
def bridgeThen (s : Setup) (st : RouteState) (e : Edge)
    (bridgePath : List Edge) (nextNode : String) : RouteState :=
  let st1 :=
    if bridgePath.length > 0 then
      { st with
        resultEdges := st.resultEdges ++ bridgePath.map (fun be => ⟨be, false⟩),
        current := if nextNode = e.b then e.a else e.b }
    else st
  blockedPhase s st1 e nextNode

/-- One step of the bridging variant's walk: on a discontinuity, bridge
to the nearer reachable endpoint, or skip the edge (`continue`) when
neither endpoint is reachable. -/
def stepBridge (s : Setup) (st : RouteState) (e : Edge) : RouteState :=
  if e.a = st.current ∨ e.b = st.current then
    blockedPhase s st e (if e.a = st.current then e.b else e.a)
  else
    match findDetour s st.current e.a [], findDetour s st.current e.b [] with
    | some pa, some pb =>
      let distA := pa.foldl (fun acc de => acc + jsOr1 de.lengthKm) 0
      let distB := pb.foldl (fun acc de => acc + jsOr1 de.lengthKm) 0
      if distA ≤ distB then bridgeThen s st e pa e.b
      else bridgeThen s st e pb e.a
    | some pa, none => bridgeThen s st e pa e.b
    | none, some pb => bridgeThen s st e pb e.a
    | none, none => st

/-- The bridging `replaceBlockedEdges(edges, tourData)`, with the start
node inferred from the first edge when it does not touch the depot;
`none` models the `TypeError` thrown when `tourData` has no depot. -/
def replaceBlockedEdges (s : Setup) (tourData : Setup) (edges : List Edge) :
    Option (List TaggedEdge × List DetourRecord) :=
  (depotOf tourData).map (fun dep =>
    let startNode :=
      match edges with
      | [] => dep.id
      | e0 :: _ => if e0.a ≠ dep.id ∧ e0.b ≠ dep.id then e0.a else dep.id
    let final := edges.foldl (stepBridge s) ⟨startNode, [], []⟩
    (final.resultEdges, final.detours))

/-! ## Theorems -/

/-! ### C10: `findDetour` from a node to itself -/

section SelfDetour

/-- With only the start node at finite distance, the minimum scan finds
the start node (when it is an unvisited node) and nothing otherwise. -/
theorem selectMin_start (x : String) (l : List String) :
    selectMin (fun i => if i = x then some 0 else none) l =
      if x ∈ l then (some x, some 0) else (none, none) := by
  have hfix : ∀ (t : List String),
      t.foldl (fun acc n =>
        if qlt ((fun i => if i = x then some 0 else none) n) acc.2
        then (some n, (fun i => if i = x then some 0 else none) n) else acc)
        (some x, some 0) = (some x, some 0) := by
    intro t
    induction t with
    | nil => rfl
    | cons hd tl ih =>
      by_cases h : hd = x
      · simpa [h, qlt] using ih
      · simpa [h, qlt] using ih
  induction l with
  | nil => rfl
  | cons hd tl ih =>
    by_cases h : hd = x
    · subst h
      simp only [selectMin, List.foldl_cons, qlt, if_pos rfl] at *
      simpa using hfix tl
    · have hne : ¬x = hd := fun hx => h hx.symm
      simp only [selectMin, List.foldl_cons, qlt, if_neg h] at *
      simpa [List.mem_cons, hne] using ih

/-- C10: for every node id `s` and every exclusion set,
`findDetour(s, s, excluded)` returns `null`: the start node is popped
first (or nothing is reachable at all) and the loop breaks before any
predecessor for the end node is recorded, so the caller receives `null`
rather than a trivial empty path. -/
theorem findDetour_self_eq_none (s : Setup) (x : String) (ex : List String) :
    findDetour s x x ex = none := by
  have key : ∀ (graph : String → List Nb) (unvisited : List String),
      (dijkstraLoop graph x unvisited.length (fun i => if i = x then some 0 else none)
        (fun _ => none) unvisited).2 x = none := by
    intro graph unvisited
    cases unvisited with
    | nil => simp [dijkstraLoop]
    | cons u us =>
      have hsel := selectMin_start x (u :: us)
      by_cases hmem : x ∈ u :: us
      · rw [if_pos hmem] at hsel
        simp [dijkstraLoop, List.length_cons, hsel]
      · rw [if_neg hmem] at hsel
        simp [dijkstraLoop, List.length_cons, hsel]
  simp only [findDetour, key]

end SelfDetour

/-! ### C8: the Lin-Kernighan outer loop is hard-capped -/

section LkhTermination

/-- The pass counter of the bounded outer loop never exceeds its bound. -/
theorem lkhLoop_count_le (d : String → String → ℚ) (cs : String → List String)
    (depotId : String) :
    ∀ (fuel : Nat) (tour dl : List String),
      (lkhLoop d cs depotId fuel tour dl).2 ≤ fuel := by
  intro fuel
  induction fuel with
  | zero => intro tour dl; simp [lkhLoop]
  | succ n ih =>
    intro tour dl
    simp only [lkhLoop]
    by_cases h : (lkhPass d cs depotId tour dl).2.2
    · simpa [h] using Nat.succ_le_succ (ih _ _)
    · simp [h]

/-- C8: `linKernighanHelsgaun` is an explicitly bounded loop: it is the
first projection of `lkhLoop` run with the hard cap `maxIterations =
100`, and the number of outer passes that run (the final value of the
JS `iteration` counter) is at most 100 on every input, so the search
always returns a tour after finitely many passes. -/
theorem linKernighanHelsgaun_bounded (d : String → String → ℚ)
    (tour : List String) (depotId : String) :
    linKernighanHelsgaun d tour depotId =
      (lkhLoop d (buildCandidateSets d tour depotId 10) depotId 100 tour []).1 ∧
    (lkhLoop d (buildCandidateSets d tour depotId 10) depotId 100 tour []).2 ≤ 100 :=
  ⟨rfl, lkhLoop_count_le _ _ _ 100 tour []⟩

end LkhTermination

/-! ### C9: tour improvement returns permutations of its input -/

section TourPerm

/-- Reversing a middle slice of a list yields a permutation of it. -/
theorem seg_reverse_perm (l : List String) (a b : Nat) (h : a ≤ b + 1) :
    (l.take a ++ ((l.drop a).take (b + 1 - a)).reverse ++ l.drop (b + 1)).Perm l := by
  have hdd : l.drop (b + 1) = (l.drop a).drop (b + 1 - a) := by
    rw [List.drop_drop]
    congr 1
    omega
  have hsplit : (l.drop a).take (b + 1 - a) ++ l.drop (b + 1) = l.drop a := by
    rw [hdd, List.take_append_drop]
  have hperm : (l.take a ++ (((l.drop a).take (b + 1 - a)).reverse ++ l.drop (b + 1))).Perm
      (l.take a ++ ((l.drop a).take (b + 1 - a) ++ l.drop (b + 1))) :=
    List.Perm.append_left _ (List.Perm.append_right _ (List.reverse_perm _))
  rw [hsplit, List.take_append_drop] at hperm
  simpa [List.append_assoc] using hperm

/-- Every 2-opt candidate with `i ≤ k + 1` permutes the working tour. -/
theorem candidateAt_perm (l : List String) (i k : Nat) (h : i ≤ k + 1) :
    (candidateAt l i k).Perm l :=
  seg_reverse_perm l i k h

/-- `apply2OptMove` permutes the tour, for any index pair. -/
theorem apply2OptMove_perm (tour : List String) (idx1 idx2 : Nat) :
    (apply2OptMove tour idx1 idx2).Perm tour := by
  unfold apply2OptMove
  exact seg_reverse_perm tour (min idx1 idx2 + 1) (max idx1 idx2)
    (by have := min_le_max (a := idx1) (b := idx2); omega)

/-- `sort3` returns its arguments in ascending order. -/
theorem sort3_le (a b c : Nat) :
    (sort3 a b c).1 ≤ (sort3 a b c).2.1 ∧ (sort3 a b c).2.1 ≤ (sort3 a b c).2.2 := by
  unfold sort3
  split_ifs <;> simp <;> omega

/-- The first 3-opt reconnection pattern, with ordered break indices,
permutes the tour. -/
theorem three_seg_perm (tour : List String) (i j k : Nat)
    (hij : i ≤ j) (hjk : j ≤ k) :
    (tour.take (i + 1) ++ ((tour.drop (j + 1)).take (k + 1 - (j + 1))).reverse ++
      (tour.drop (i + 1)).take (j + 1 - (i + 1)) ++ tour.drop (k + 1)).Perm tour := by
  set s1 := tour.take (i + 1) with hs1
  set s2 := (tour.drop (i + 1)).take (j + 1 - (i + 1)) with hs2
  set s3 := (tour.drop (j + 1)).take (k + 1 - (j + 1)) with hs3
  set s4 := tour.drop (k + 1) with hs4
  have e3 : s3 ++ s4 = tour.drop (j + 1) := by
    rw [hs3, hs4]
    have hkj : tour.drop (k + 1) = (tour.drop (j + 1)).drop (k + 1 - (j + 1)) := by
      rw [List.drop_drop]
      congr 1
      omega
    rw [hkj, List.take_append_drop]
  have e2 : s2 ++ tour.drop (j + 1) = tour.drop (i + 1) := by
    rw [hs2]
    have hji : tour.drop (j + 1) = (tour.drop (i + 1)).drop (j + 1 - (i + 1)) := by
      rw [List.drop_drop]
      congr 1
      omega
    rw [hji, List.take_append_drop]
  have h3 : (s3.reverse ++ (s2 ++ s4)).Perm (s3 ++ (s2 ++ s4)) :=
    List.Perm.append_right _ (List.reverse_perm _)
  have h4 : (s3 ++ (s2 ++ s4)).Perm (s2 ++ (s3 ++ s4)) := by
    have hc : ((s3 ++ s2) ++ s4).Perm ((s2 ++ s3) ++ s4) :=
      List.Perm.append_right _ List.perm_append_comm
    simpa [List.append_assoc] using hc
  have hall : (s1 ++ (s3.reverse ++ (s2 ++ s4))).Perm (s1 ++ (s2 ++ (s3 ++ s4))) :=
    List.Perm.append_left _ (h3.trans h4)
  have heq : s1 ++ (s2 ++ (s3 ++ s4)) = tour := by
    rw [e3, e2]
    exact List.take_append_drop _ _
  rw [heq] at hall
  have hassoc : s1 ++ s3.reverse ++ s2 ++ s4 = s1 ++ (s3.reverse ++ (s2 ++ s4)) := by
    simp [List.append_assoc]
  rw [hassoc]
  exact hall

/-- `apply3OptMove` permutes the tour, for any index triple. -/
theorem apply3OptMove_perm (tour : List String) (idx1 idx2 idx3 : Nat) :
    (apply3OptMove tour idx1 idx2 idx3).Perm tour := by
  obtain ⟨h1, h2⟩ := sort3_le idx1 idx2 idx3
  show (apply3OptMove tour idx1 idx2 idx3).Perm tour
  unfold apply3OptMove
  exact three_seg_perm tour _ _ _ h1 h2

/-- A property holding for every value produced by the scanned function
holds for the result of `findSome?`. -/
theorem findSome_preserve {α β : Type} (f : α → Option β) (P : β → Prop)
    (h : ∀ x r, f x = some r → P r) :
    ∀ (l : List α) (r : β), l.findSome? f = some r → P r := by
  intro l
  induction l with
  | nil => intro r hr; simp [List.findSome?] at hr
  | cons hd tl ih =>
    intro r hr
    rw [List.findSome?_cons] at hr
    cases hf : f hd with
    | some v =>
      rw [hf] at hr
      exact h hd r (by rw [hf]; exact hr)
    | none =>
      rw [hf] at hr
      exact ih r hr

/-- Every candidate accepted in the 3-opt extension permutes the tour. -/
theorem extCand_perm (d : String → String → ℚ) (tour : List String)
    (idx1 idx3 : Nat) (g : ℚ) (t4 t5 : String) :
    ∀ r, extCand d tour idx1 idx3 g t4 t5 = some r → r.Perm tour := by
  intro r hr
  unfold extCand at hr
  split at hr
  · exact absurd hr (by simp)
  · split at hr
    · exact absurd hr (by simp)
    · simp only at hr
      split at hr
      · rw [Option.some_inj] at hr
        exact hr ▸ apply3OptMove_perm _ _ _ _
      · exact absurd hr (by simp)

/-- Every move produced by `tryExtendedMove` permutes the tour. -/
theorem tryExtendedMove_perm (d : String → String → ℚ) (cs : String → List String)
    (tour : List String) (idx1 idx3 : Nat) (g : ℚ) :
    ∀ r, tryExtendedMove d cs tour idx1 idx3 g = some r → r.Perm tour := by
  intro r hr
  unfold tryExtendedMove at hr
  exact findSome_preserve _ (fun q => q.Perm tour)
    (fun t5 q hq => extCand_perm d tour idx1 idx3 g _ t5 q hq) _ r hr

/-- Every candidate accepted in the 2-opt closure permutes the tour. -/
theorem lkCand_perm (d : String → String → ℚ) (cs : String → List String)
    (tour : List String) (startIdx : Nat) (t1 t2 t1Prev t3 : String) :
    ∀ r, lkCand d cs tour startIdx t1 t2 t1Prev t3 = some r → r.Perm tour := by
  intro r hr
  unfold lkCand at hr
  split at hr
  · exact absurd hr (by simp)
  · simp only at hr
    split at hr
    · exact absurd hr (by simp)
    · split at hr
      · exact absurd hr (by simp)
      · split at hr
        · rw [Option.some_inj] at hr
          exact hr ▸ apply2OptMove_perm _ _ _
        · exact tryExtendedMove_perm _ _ _ _ _ _ r hr

/-- Every move produced by `linKernighanMove` permutes the tour. -/
theorem linKernighanMove_perm (d : String → String → ℚ) (cs : String → List String)
    (depotId : String) (tour : List String) (startIdx : Nat) :
    ∀ r, linKernighanMove d cs depotId tour startIdx = some r → r.Perm tour := by
  intro r hr
  unfold linKernighanMove at hr
  exact findSome_preserve _ (fun q => q.Perm tour)
    (fun t3 q hq => lkCand_perm d cs tour startIdx _ _ _ t3 q hq) _ r hr

/-- One Lin-Kernighan pass permutes the tour. -/
theorem lkhPassAux_perm (d : String → String → ℚ) (cs : String → List String)
    (depotId : String) (tour : List String) :
    ∀ (idxs : List Nat) (dl : List String),
      (lkhPassAux d cs depotId tour idxs dl).1.Perm tour := by
  intro idxs
  induction idxs with
  | nil => intro dl; simp [lkhPassAux]
  | cons i rest ih =>
    intro dl
    simp only [lkhPassAux]
    by_cases hmem : (tour[i]?).getD "" ∈ dl
    · simpa [hmem] using ih dl
    · simp only [List.getD_eq_getElem?_getD, if_neg hmem]
      cases hmv : linKernighanMove d cs depotId tour i with
      | some newTour => simpa using linKernighanMove_perm _ _ _ _ _ _ hmv
      | none => exact ih (dlInsert dl ((tour[i]?).getD ""))

/-- The bounded Lin-Kernighan loop permutes the tour. -/
theorem lkhLoop_perm (d : String → String → ℚ) (cs : String → List String)
    (depotId : String) :
    ∀ (fuel : Nat) (tour dl : List String),
      (lkhLoop d cs depotId fuel tour dl).1.Perm tour := by
  intro fuel
  induction fuel with
  | zero => intro tour dl; simp [lkhLoop]
  | succ n ih =>
    intro tour dl
    simp only [lkhLoop]
    have hpass : (lkhPass d cs depotId tour dl).1.Perm tour := lkhPassAux_perm _ _ _ _ _ _
    by_cases h : (lkhPass d cs depotId tour dl).2.2
    · simpa [h] using ((ih _ _).trans hpass)
    · simpa [h] using hpass

/-- Every index pair generated for a sweep is strictly increasing. -/
theorem sweepPairs_lt (n : Nat) : ∀ p ∈ sweepPairs n, p.1 < p.2 := by
  intro p hp
  unfold sweepPairs at hp
  simp only [List.mem_flatMap, List.mem_filter, List.mem_map] at hp
  obtain ⟨i, _, hfilter⟩ := hp
  exact of_decide_eq_true hfilter.2

/-- Any prefix of a sweep keeps the working tour a permutation of the
tour it started from. -/
theorem sweep_fold_perm (d : String → String → ℚ) (dep : String)
    (best : List String) :
    ∀ (ps : List (Nat × Nat)) (st : List String × Bool),
      (∀ p ∈ ps, p.1 < p.2) → st.1.Perm best →
      (ps.foldl (sweepStep d dep) st).1.Perm best := by
  intro ps
  induction ps with
  | nil => intro st _ h; simpa using h
  | cons p rest ih =>
    intro st hlt hst
    simp only [List.foldl_cons]
    refine ih _ (fun q hq => hlt q (List.mem_cons_of_mem _ hq)) ?_
    simp only [sweepStep]
    by_cases hc : tourLength d dep (candidateAt st.1 p.1 p.2) < tourLength d dep st.1
    · simpa [hc] using (candidateAt_perm st.1 p.1 p.2
        (by have := hlt p (List.mem_cons_self _ _); omega)).trans hst
    · simpa [hc] using hst

/-- A sweep permutes the tour. -/
theorem sweep_perm (d : String → String → ℚ) (dep : String) (best : List String) :
    (sweep d dep best).1.Perm best :=
  sweep_fold_perm d dep best _ _ (sweepPairs_lt _) (List.Perm.refl _)

/-- The 2-opt outer loop permutes the tour, for every fuel. -/
theorem twoOptLoop_perm (d : String → String → ℚ) (dep : String) :
    ∀ (fuel : Nat) (best : List String), (twoOptLoop d dep fuel best).Perm best := by
  intro fuel
  induction fuel with
  | zero => intro best; simp [twoOptLoop]
  | succ n ih =>
    intro best
    simp only [twoOptLoop]
    by_cases h : (sweep d dep best).2
    · simpa [h] using (ih _).trans (sweep_perm d dep best)
    · simpa [h] using sweep_perm d dep best

/-- C9: tour improvement preserves the tour's contents.  For every
distance function and input tour, `twoOpt` (at every fuel) and
`linKernighanHelsgaun` return permutations of the input, and each
applied 2-opt segment reversal and 3-opt reconnection is itself a
rearrangement of the same node ids — improvement never adds, drops, or
duplicates a tour element. -/
theorem improvement_preserves_tour_contents :
    (∀ (s : Setup) (d : String → String → ℚ) (fuel : Nat) (T r : List String),
      twoOpt s d fuel T = some r → r.Perm T) ∧
    (∀ (d : String → String → ℚ) (T : List String) (dep : String),
      (linKernighanHelsgaun d T dep).Perm T) ∧
    (∀ (tour : List String) (i j : Nat), (apply2OptMove tour i j).Perm tour) ∧
    (∀ (tour : List String) (i j k : Nat), (apply3OptMove tour i j k).Perm tour) := by
  refine ⟨?_, ?_, apply2OptMove_perm, apply3OptMove_perm⟩
  · intro s d fuel T r hr
    unfold twoOpt at hr
    cases hdep : depotOf s with
    | none => rw [hdep] at hr; simp at hr
    | some dep =>
      rw [hdep] at hr
      simp only [Option.map_some'] at hr
      rw [Option.some_inj] at hr
      exact hr ▸ twoOptLoop_perm d dep.id fuel T
  · intro d T dep
    exact lkhLoop_perm d _ dep 100 T []

/-- Witness for C9: the theorem applied at a concrete graph, distance
function, and tour, all hypotheses discharged by evaluation. -/
theorem improvement_preserves_tour_contents_witness :
    (["q", "p"] : List String).Perm ["p", "q"] :=
  improvement_preserves_tour_contents.1
    ⟨[⟨"D", 0, 0, "depot"⟩], [], 1⟩
    (fun x y =>
      match x, y with
      | "D", "p" => 10
      | "q", "D" => 10
      | _, _ => 0)
    1 ["p", "q"] ["q", "p"] (by with_unfolding_all decide)

end TourPerm

/-! ### C2: 2-opt never lengthens the tour -/

section TwoOptMonotone

/-- One inner-loop step never increases the working tour's length. -/
theorem sweepStep_le (d : String → String → ℚ) (dep : String)
    (st : List String × Bool) (p : Nat × Nat) :
    tourLength d dep (sweepStep d dep st p).1 ≤ tourLength d dep st.1 := by
  simp only [sweepStep]
  by_cases hc : tourLength d dep (candidateAt st.1 p.1 p.2) < tourLength d dep st.1
  · simpa [hc] using le_of_lt hc
  · simp [hc]

/-- A sweep never increases the working tour's length. -/
theorem sweep_fold_le (d : String → String → ℚ) (dep : String) :
    ∀ (ps : List (Nat × Nat)) (st : List String × Bool),
      tourLength d dep ((ps.foldl (sweepStep d dep) st).1) ≤ tourLength d dep st.1 := by
  intro ps
  induction ps with
  | nil => intro st; simp
  | cons p rest ih =>
    intro st
    simp only [List.foldl_cons]
    exact (ih _).trans (sweepStep_le d dep st p)

/-- The outer loop never increases the tour's length, for every fuel. -/
theorem twoOptLoop_le (d : String → String → ℚ) (dep : String) :
    ∀ (fuel : Nat) (T : List String),
      tourLength d dep (twoOptLoop d dep fuel T) ≤ tourLength d dep T := by
  intro fuel
  induction fuel with
  | zero => intro T; simp [twoOptLoop]
  | succ n ih =>
    intro T
    simp only [twoOptLoop]
    by_cases h : (sweep d dep T).2
    · simpa [h] using (ih _).trans (sweep_fold_le d dep _ _)
    · simpa [h] using sweep_fold_le d dep (sweepPairs T.length) (T, false)

/-- C2: for every non-empty initial tour, every distance function, and
every fuel, the tour returned by `twoOpt` has total length (depot to
first element, consecutive pairwise distances, last element back to
depot) at most the total length of the input tour. -/
theorem twoOpt_monotone (s : Setup) (d : String → String → ℚ) (dep : Node)
    (fuel : Nat) (T r : List String) (hdep : depotOf s = some dep)
    (hne : T ≠ []) (hr : twoOpt s d fuel T = some r) :
    tourLength d dep.id r ≤ tourLength d dep.id T := by
  unfold twoOpt at hr
  rw [hdep] at hr
  simp only [Option.map_some'] at hr
  rw [Option.some_inj] at hr
  exact hr ▸ twoOptLoop_le d dep.id fuel T

/-- Witness for C2: the theorem applied at a concrete graph, distance
function, and tour, all hypotheses discharged by evaluation. -/
theorem twoOpt_monotone_witness :
    tourLength
      (fun x y =>
        match x, y with
        | "D", "p" => 10
        | "q", "D" => 10
        | _, _ => 0) "D" ["q", "p"] ≤
    tourLength
      (fun x y =>
        match x, y with
        | "D", "p" => 10
        | "q", "D" => 10
        | _, _ => 0) "D" ["p", "q"] :=
  twoOpt_monotone ⟨[⟨"D", 0, 0, "depot"⟩], [], 1⟩ _ ⟨"D", 0, 0, "depot"⟩
    1 ["p", "q"] ["q", "p"] (by with_unfolding_all decide)
    (by with_unfolding_all decide) (by with_unfolding_all decide)

end TwoOptMonotone

/-! ### C7: the 2-opt double loop does not restart on adoption -/

section TwoOptControlFlow

/-- The improvement flag is monotone along a sweep. -/
theorem sweep_flag_monotone (d : String → String → ℚ) (dep : String) :
    ∀ (ps : List (Nat × Nat)) (st : List String × Bool),
      st.2 = true → (ps.foldl (sweepStep d dep) st).2 = true := by
  intro ps
  induction ps with
  | nil => intro st h; simpa using h
  | cons p rest ih =>
    intro st h
    simp only [List.foldl_cons]
    refine ih _ ?_
    simp only [sweepStep]
    by_cases hc : tourLength d dep (candidateAt st.1 p.1 p.2) < tourLength d dep st.1
    · simp [hc]
    · simpa [hc] using h

/-- A sweep that reports no improvement left the tour untouched. -/
theorem sweep_fold_no_improvement (d : String → String → ℚ) (dep : String) :
    ∀ (ps : List (Nat × Nat)) (st : List String × Bool),
      (ps.foldl (sweepStep d dep) st).2 = false →
      (ps.foldl (sweepStep d dep) st).1 = st.1 := by
  intro ps
  induction ps with
  | nil => intro st _; rfl
  | cons p rest ih =>
    intro st hfin
    simp only [List.foldl_cons] at hfin ⊢
    by_cases hc : tourLength d dep (candidateAt st.1 p.1 p.2) < tourLength d dep st.1
    · exfalso
      have : (rest.foldl (sweepStep d dep) (sweepStep d dep st p)).2 = true := by
        refine sweep_flag_monotone d dep rest _ ?_
        simp [sweepStep, hc]
      rw [this] at hfin
      exact absurd hfin (by simp)
    · have hstep : sweepStep d dep st p = st := by simp [sweepStep, hc]
      rw [hstep] at hfin ⊢
      exact ih st hfin

/-- A sweep that reports an improvement strictly shortened the tour. -/
theorem sweep_fold_improvement_lt (d : String → String → ℚ) (dep : String) :
    ∀ (ps : List (Nat × Nat)) (st : List String × Bool),
      st.2 = false → (ps.foldl (sweepStep d dep) st).2 = true →
      tourLength d dep ((ps.foldl (sweepStep d dep) st).1) < tourLength d dep st.1 := by
  intro ps
  induction ps with
  | nil =>
    intro st h0 hfin
    simp only [List.foldl_nil] at hfin
    rw [h0] at hfin
    exact absurd hfin (by simp)
  | cons p rest ih =>
    intro st h0 hfin
    simp only [List.foldl_cons] at hfin ⊢
    by_cases hc : tourLength d dep (candidateAt st.1 p.1 p.2) < tourLength d dep st.1
    · have hstep : sweepStep d dep st p = (candidateAt st.1 p.1 p.2, true) := by
        simp [sweepStep, hc]
      rw [hstep] at hfin ⊢
      exact lt_of_le_of_lt (sweep_fold_le d dep rest _) hc
    · have hstep : sweepStep d dep st p = st := by simp [sweepStep, hc]
      rw [hstep] at hfin ⊢
      exact ih st h0 hfin

/-- C7 (amended): `twoOpt` adopts each improving candidate immediately
(first-improvement), but after an adoption the sweep continues from the
current index pair; the double loop restarts only once the sweep has
run to completion with at least one adoption, and the search terminates
when a full sweep produces no improvement.  Concretely: an improving
sweep strictly shortens the tour, a non-improving sweep returns it
unchanged, the outer loop re-enters the double loop only after a
completed improving sweep, and a tour whose full sweep finds no
improvement is returned as is. -/
theorem twoOpt_sweep_continue_semantics :
    (∀ (d : String → String → ℚ) (dep : String) (T : List String),
      (sweep d dep T).2 = true →
      tourLength d dep (sweep d dep T).1 < tourLength d dep T) ∧
    (∀ (d : String → String → ℚ) (dep : String) (T : List String),
      (sweep d dep T).2 = false → (sweep d dep T).1 = T) ∧
    (∀ (d : String → String → ℚ) (dep : String) (fuel : Nat) (T : List String),
      twoOptLoop d dep (fuel + 1) T =
        if (sweep d dep T).2 then twoOptLoop d dep fuel (sweep d dep T).1
        else (sweep d dep T).1) ∧
    (∀ (d : String → String → ℚ) (dep : String) (fuel : Nat) (T : List String),
      (sweep d dep T).2 = false → twoOptLoop d dep (fuel + 1) T = T) := by
  refine ⟨?_, ?_, ?_, ?_⟩
  · intro d dep T h
    exact sweep_fold_improvement_lt d dep _ _ rfl h
  · intro d dep T h
    exact sweep_fold_no_improvement d dep _ _ h
  · intro d dep fuel T
    simp only [twoOptLoop]
  · intro d dep fuel T h
    simp only [twoOptLoop, h, if_false]
    exact sweep_fold_no_improvement d dep _ _ h

/-- Witness for C7's amended theorem: its parts applied at a concrete
distance function and tour, hypotheses discharged by evaluation. -/
theorem twoOpt_sweep_continue_semantics_witness :
    tourLength
      (fun x y =>
        match x, y with
        | "D", "p" => 10
        | "q", "D" => 10
        | _, _ => 0) "D"
      (sweep
        (fun x y =>
          match x, y with
          | "D", "p" => 10
          | "q", "D" => 10
          | _, _ => 0) "D" ["p", "q"]).1 <
    tourLength
      (fun x y =>
        match x, y with
        | "D", "p" => 10
        | "q", "D" => 10
        | _, _ => 0) "D" ["p", "q"] :=
  twoOpt_sweep_continue_semantics.1 _ "D" ["p", "q"] (by with_unfolding_all decide)

/-- The concrete five-address distance table separating the source's
sweep-continuing loop from the spec's restart-on-adoption loop. -/
def dSep : String → String → ℚ := fun x y =>
  match x, y with
  | "a", "b" => 12 | "b", "a" => 12
  | "a", "c" => 10 | "c", "a" => 10
  | "a", "d" => 10 | "d", "a" => 10
  | "a", "e" => 10 | "e", "a" => 10
  | "a", "D" => 7 | "D", "a" => 7
  | "b", "c" => 11 | "c", "b" => 11
  | "b", "d" => 3 | "d", "b" => 3
  | "b", "e" => 3 | "e", "b" => 3
  | "b", "D" => 9 | "D", "b" => 9
  | "c", "d" => 4 | "d", "c" => 4
  | "c", "e" => 1 | "e", "c" => 1
  | "c", "D" => 4 | "D", "c" => 4
  | "d", "e" => 9 | "e", "d" => 9
  | "d", "D" => 9 | "D", "d" => 9
  | "e", "D" => 4 | "D", "e" => 4
  | _, _ => 0

set_option maxRecDepth 40000 in
set_option maxHeartbeats 1000000 in
/-- Counterexample to C7 as stated: on this input the source's loop
(which continues the sweep after an adoption) and the spec's
restart-after-every-adoption loop converge to different tours, each a
2-opt fixed point of its own schedule, so `twoOpt` does not restart the
double loop after every adoption. -/
theorem twoOpt_restart_counterexample :
    twoOpt ⟨[⟨"D", 0, 0, "depot"⟩], [], 1⟩ dSep 10 ["a", "b", "c", "d", "e"] =
      some ["a", "d", "b", "e", "c"] ∧
    twoOptRestartLoop dSep "D" 10 ["a", "b", "c", "d", "e"] =
      ["a", "b", "d", "c", "e"] ∧
    (sweep dSep "D" ["a", "d", "b", "e", "c"]).2 = false ∧
    firstImprovement dSep "D" ["a", "b", "d", "c", "e"] = none ∧
    (["a", "d", "b", "e", "c"] : List String) ≠ ["a", "b", "d", "c", "e"] := by
  refine ⟨?_, ?_, ?_, ?_, ?_⟩ <;> with_unfolding_all decide

end TwoOptControlFlow

/-! ### C5: the direct-edge short circuit -/

section DirectEdge

/-- C5 (amended): on a cache miss, when the cluster-pair scan finds a
direct edge (for each pair it consults only the first edge of the edge
list joining that pair, and uses it only if unblocked), the returned
distance is exactly that edge's `lengthKm` (`0` if absent) — the
result is independent of any pathfinding.  An unblocked parallel edge
listed after a blocked edge between the same endpoints is not found by
the scan, in which case pathfinding is used instead. -/
theorem direct_edge_short_circuit (s : Setup) (euclid : Node → Node → ℚ)
    (c : Cache) (fromId toId : String) (e : Edge)
    (h1 : c (cacheKey fromId toId) = none)
    (h2 : c (cacheKey toId fromId) = none)
    (hd : findDirect s.edges (getCluster s fromId) (getCluster s toId) = some e) :
    (calculateNetworkDistance s euclid c fromId toId).1 = some (e.lengthKm.getD 0) := by
  simp only [calculateNetworkDistance]
  rw [h1, h2, hd]

/-- Witness for C5's amended theorem: a concrete direct edge, all
hypotheses discharged by evaluation. -/
theorem direct_edge_short_circuit_witness :
    (calculateNetworkDistance
      ⟨[⟨"A", 0, 0, "address"⟩, ⟨"B", 10, 0, "address"⟩],
       [⟨"e1", "A", "B", some 4, false⟩], 1⟩
      (fun _ _ => 99) (fun _ => none) "A" "B").1 =
      some ((⟨"e1", "A", "B", some 4, false⟩ : Edge).lengthKm.getD 0) :=
  direct_edge_short_circuit _ _ _ "A" "B" _ rfl rfl (by with_unfolding_all decide)

/-- The shadowed-parallel-edge graph: the first edge joining `A` and
`B` is blocked, a second unblocked edge joins them with length 10, and
a two-edge path through junction `C` has length 2. -/
def sShadow : Setup :=
  { nodes := [⟨"A", 0, 0, "address"⟩, ⟨"B", 10, 0, "address"⟩, ⟨"C", 5, 5, "junction"⟩],
    edges := [⟨"e1", "A", "B", some 4, true⟩, ⟨"e2", "A", "B", some 10, false⟩,
              ⟨"e3", "A", "C", some 1, false⟩, ⟨"e4", "C", "B", some 1, false⟩],
    scalePxPerKm := 1 }

set_option maxRecDepth 40000 in
set_option maxHeartbeats 1000000 in
/-- Counterexample to C5 as stated: a direct, unblocked edge `e2`
between `A` and `B` exists (searched over the cluster pair, on a cache
miss), yet `calculateNetworkDistance` returns the pathfound value `2`,
not `e2`'s `lengthKm` of `10`: the scan consulted only the first
matching edge (`e1`, blocked) for the pair and fell through to
pathfinding. -/
theorem direct_edge_shadowed_counterexample :
    (calculateNetworkDistance sShadow (fun _ _ => 99) (fun _ => none) "A" "B").1 =
      some 2 ∧
    (⟨"e2", "A", "B", some 10, false⟩ : Edge) ∈ sShadow.edges ∧
    (⟨"e2", "A", "B", some 10, false⟩ : Edge).blocked = false ∧
    ((2 : ℚ) ≠ 10) := by
  refine ⟨?_, ?_, ?_, ?_⟩ <;> with_unfolding_all decide

end DirectEdge

/-! ### C3: the value returned for unreachable destinations -/

section UnreachableFallback

/-- C3 (amended): on a cache miss with no direct edge and failed
pathfinding, the result is the straight-line estimate
`euclid / scalePxPerKm` whenever both endpoint ids are known nodes, and
`Infinity` (`none`) exactly when an endpoint id is unknown — an
unreachable destination between known nodes does *not* yield
`Infinity`. -/
theorem unreachable_fallback (s : Setup) (euclid : Node → Node → ℚ) (c : Cache)
    (fromId toId : String)
    (h1 : c (cacheKey fromId toId) = none)
    (h2 : c (cacheKey toId fromId) = none)
    (hd : findDirect s.edges (getCluster s fromId) (getCluster s toId) = none)
    (hp : findDetour s (junctionRep s (getCluster s fromId))
      (junctionRep s (getCluster s toId)) [] = none) :
    (calculateNetworkDistance s euclid c fromId toId).1 =
      (match nodesById s fromId, nodesById s toId with
       | some fn, some tn => some (euclid fn tn / s.scalePxPerKm)
       | _, _ => none) := by
  simp only [calculateNetworkDistance]
  rw [h1, h2, hd, hp]
  cases hf : nodesById s fromId <;> cases ht : nodesById s toId <;> simp

/-- The disconnected two-node graph: both endpoints are known nodes,
no edge exists at all. -/
def sDisc : Setup :=
  { nodes := [⟨"A", 0, 0, "address"⟩, ⟨"B", 3, 4, "address"⟩],
    edges := [], scalePxPerKm := 1 }

/-- Witness for C3's amended theorem: the disconnected graph, all
hypotheses discharged by evaluation. -/
theorem unreachable_fallback_witness :
    (calculateNetworkDistance sDisc (fun _ _ => 5) (fun _ => none) "A" "B").1 =
      (match nodesById sDisc "A", nodesById sDisc "B" with
       | some fn, some tn => some ((fun (_ _ : Node) => (5 : ℚ)) fn tn / sDisc.scalePxPerKm)
       | _, _ => none) :=
  unreachable_fallback sDisc (fun _ _ => 5) (fun _ => none) "A" "B"
    rfl rfl (by with_unfolding_all decide) (by with_unfolding_all decide)

/-- Counterexample to C3 as stated: `B` is unreachable from `A` (the
graph has no edges and `findDetour` returns `null`), yet
`calculateNetworkDistance` returns the finite straight-line fallback,
not `Infinity`. -/
theorem unreachable_not_infinity_counterexample :
    (calculateNetworkDistance sDisc (fun _ _ => 5) (fun _ => none) "A" "B").1 =
      some 5 ∧
    findDetour sDisc "A" "B" [] = none ∧
    sDisc.edges = [] ∧
    (some (5 : ℚ) ≠ none) := by
  refine ⟨?_, ?_, ?_, ?_⟩ <;> with_unfolding_all decide

end UnreachableFallback

/-! ### C4: distance symmetry through the bidirectional cache -/

section CacheSymmetry

/-- A node id containing no dash: the data-model key format.  A dash
inside an id would let distinct id pairs collide on one concatenated
cache key. -/
def noDash (s : String) : Prop := ('-' : Char) ∉ s.data

instance noDashDecidable (s : String) : Decidable (noDash s) := by
  unfold noDash
  infer_instance

/-- The cache symmetry invariant, over dash-free id pairs: a value
cached under `(a,b)` is cached identically under `(b,a)`. -/
def SymmCache (c : Cache) : Prop :=
  ∀ a b : String, noDash a → noDash b → c (cacheKey a b) = c (cacheKey b a)

/-- Splitting a character list at a separator absent from both prefixes
is unique. -/
theorem splitDash_unique :
    ∀ (l1 m1 l2 m2 : List Char), ('-' : Char) ∉ l1 → ('-' : Char) ∉ m1 →
      l1 ++ '-' :: l2 = m1 ++ '-' :: m2 → l1 = m1 ∧ l2 = m2 := by
  intro l1
  induction l1 with
  | nil =>
    intro m1 l2 m2 _ h2 heq
    cases m1 with
    | nil => simpa using heq
    | cons c m1' =>
      exfalso
      simp only [List.nil_append, List.cons_append, List.cons.injEq] at heq
      exact h2 (heq.1 ▸ List.mem_cons_self _ _)
  | cons c l1' ih =>
    intro m1 l2 m2 h1 h2 heq
    cases m1 with
    | nil =>
      exfalso
      simp only [List.nil_append, List.cons_append, List.cons.injEq] at heq
      exact h1 (heq.1 ▸ List.mem_cons_self _ _)
    | cons c' m1' =>
      simp only [List.cons_append, List.cons.injEq] at heq
      have hrec := ih m1' l2 m2 (fun hm => h1 (List.mem_cons_of_mem _ hm))
        (fun hm => h2 (List.mem_cons_of_mem _ hm)) heq.2
      exact ⟨by rw [heq.1, hrec.1], hrec.2⟩

/-- The character data of a concatenated cache key. -/
theorem cacheKey_data (a b : String) :
    (cacheKey a b).data = a.data ++ '-' :: b.data := by
  simp [cacheKey, String.data_append]

/-- Cache keys of dash-free id pairs collide only on equal pairs. -/
theorem cacheKey_inj {a b c d : String} (ha : noDash a) (hc : noDash c)
    (h : cacheKey a b = cacheKey c d) : a = c ∧ b = d := by
  have hdata : a.data ++ '-' :: b.data = c.data ++ '-' :: d.data := by
    have := congrArg String.data h
    rwa [cacheKey_data, cacheKey_data] at this
  obtain ⟨h1, h2⟩ := splitDash_unique a.data c.data b.data d.data ha hc hdata
  exact ⟨String.ext h1, String.ext h2⟩

/-- Inserting one value under both orderings of a dash-free key pair
preserves the symmetry invariant. -/
theorem cacheInsert_symm {c : Cache} {A B : String} (hA : noDash A) (hB : noDash B)
    (hc : SymmCache c) (v : ℚ) :
    SymmCache (cacheInsert c (cacheKey A B) (cacheKey B A) v) := by
  intro a b ha hb
  simp only [cacheInsert]
  by_cases h1 : cacheKey a b = cacheKey A B
  · obtain ⟨rfl, rfl⟩ := cacheKey_inj ha hA h1
    simp
  · by_cases h2 : cacheKey a b = cacheKey B A
    · obtain ⟨rfl, rfl⟩ := cacheKey_inj ha hB h2
      simp
    · have h3 : cacheKey b a ≠ cacheKey A B := fun hk => by
        obtain ⟨rfl, rfl⟩ := cacheKey_inj hb hA hk
        exact h2 rfl
      have h4 : cacheKey b a ≠ cacheKey B A := fun hk => by
        obtain ⟨rfl, rfl⟩ := cacheKey_inj hb hB hk
        exact h1 rfl
      simp only [h1, h2, h3, h4, or_self, if_false]
      exact hc a b ha hb

end CacheSymmetry

section CacheSymmetrySupport

/-- Failure of the per-pair direct-edge check: the first edge joining
the pair is blocked, or none joins it. -/
def pairBlockedOrAbsent (edges : List Edge) (f t : String) : Prop :=
  match edges.find? (fun e => (e.a = f ∧ e.b = t) ∨ (e.b = f ∧ e.a = t)) with
  | some e => e.blocked = true
  | none => True

/-- The edge predicate of the direct-edge scan is symmetric in the
endpoint pair, so the scanned first edge is as well. -/
theorem find_pred_symm (edges : List Edge) (f t : String) :
    edges.find? (fun e => (e.a = f ∧ e.b = t) ∨ (e.b = f ∧ e.a = t)) =
      edges.find? (fun e => (e.a = t ∧ e.b = f) ∨ (e.b = t ∧ e.a = f)) := by
  congr 1
  funext e
  exact decide_eq_decide.mpr (by tauto)

/-- `pairBlockedOrAbsent` is symmetric. -/
theorem pairBlockedOrAbsent_symm (edges : List Edge) (f t : String)
    (h : pairBlockedOrAbsent edges f t) : pairBlockedOrAbsent edges t f := by
  unfold pairBlockedOrAbsent at h ⊢
  rw [← find_pred_symm]
  exact h

/-- The inner scan fails iff every pair with the fixed `f` fails. -/
theorem findDirectInner_eq_none_iff (edges : List Edge) (f : String) :
    ∀ ts, findDirectInner edges f ts = none ↔
      ∀ t ∈ ts, pairBlockedOrAbsent edges f t := by
  intro ts
  induction ts with
  | nil => simp [findDirectInner]
  | cons t ts' ih =>
    simp only [findDirectInner]
    cases hf : edges.find? (fun e => (e.a = f ∧ e.b = t) ∨ (e.b = f ∧ e.a = t)) with
    | some e =>
      by_cases hb : e.blocked
      · simp only [hb, if_true]
        rw [ih]
        constructor
        · intro hall u hu
          rcases List.mem_cons.mp hu with rfl | hu'
          · unfold pairBlockedOrAbsent
            rw [hf]
            exact hb
          · exact hall u hu'
        · intro hall u hu
          exact hall u (List.mem_cons_of_mem _ hu)
      · simp only [hb, if_false]
        constructor
        · intro h; exact absurd h (by simp)
        · intro hall
          exfalso
          have := hall t (List.mem_cons_self _ _)
          unfold pairBlockedOrAbsent at this
          rw [hf] at this
          exact hb this
    | none =>
      rw [ih]
      constructor
      · intro hall u hu
        rcases List.mem_cons.mp hu with rfl | hu'
        · unfold pairBlockedOrAbsent
          rw [hf]
          trivial
        · exact hall u hu'
      · intro hall u hu
        exact hall u (List.mem_cons_of_mem _ hu)

/-- The full scan fails iff every cluster pair fails. -/
theorem findDirect_eq_none_iff (edges : List Edge) :
    ∀ fs ts, findDirect edges fs ts = none ↔
      ∀ f ∈ fs, ∀ t ∈ ts, pairBlockedOrAbsent edges f t := by
  intro fs
  induction fs with
  | nil => simp [findDirect]
  | cons f fs' ih =>
    intro ts
    simp only [findDirect]
    cases hf : findDirectInner edges f ts with
    | some e =>
      constructor
      · intro h; exact absurd h (by simp)
      · intro hall
        exfalso
        have h1 := (findDirectInner_eq_none_iff edges f ts).mpr
          (fun t ht => hall f (List.mem_cons_self _ _) t ht)
        rw [hf] at h1
        exact absurd h1 (by simp)
    | none =>
      rw [ih]
      constructor
      · intro hall u hu t ht
        rcases List.mem_cons.mp hu with rfl | hu'
        · exact (findDirectInner_eq_none_iff edges u ts).mp hf t ht
        · exact hall u hu' t ht
      · intro hall u hu t ht
        exact hall u (List.mem_cons_of_mem _ hu) t ht

/-- A failed direct-edge scan fails in the swapped direction too. -/
theorem findDirect_swap_none (edges : List Edge) (fs ts : List String)
    (h : findDirect edges fs ts = none) : findDirect edges ts fs = none := by
  rw [findDirect_eq_none_iff] at h ⊢
  intro t ht f hf
  exact pairBlockedOrAbsent_symm edges f t (h f hf t ht)

/-- Membership in the JS-set deduplication is plain membership. -/
theorem jsDedup_mem (x : String) : ∀ (l : List String), x ∈ jsDedup l ↔ x ∈ l := by
  have key : ∀ (l acc : List String),
      x ∈ l.foldl (fun acc y => if y ∈ acc then acc else acc ++ [y]) acc ↔
        x ∈ acc ∨ x ∈ l := by
    intro l
    induction l with
    | nil => intro acc; simp
    | cons y l' ih =>
      intro acc
      simp only [List.foldl_cons]
      by_cases hy : y ∈ acc
      · rw [ih]
        simp only [hy, if_true, List.mem_cons]
        constructor
        · rintro (h | h)
          · exact Or.inl h
          · exact Or.inr (Or.inr h)
        · rintro (h | rfl | h)
          · exact Or.inl h
          · exact Or.inl hy
          · exact Or.inr h
      · rw [ih]
        simp only [hy, if_false, List.mem_append, List.mem_singleton, List.mem_cons]
        tauto
  intro l
  rw [jsDedup, key]
  simp

/-- Relaxation never writes a predecessor for a node outside the
unvisited set. -/
theorem relax_fold_prev_eq (unvisited : List String) (cur : String) (x : String)
    (hx : x ∉ unvisited) :
    ∀ (nbs : List Nb) (dp : (String → Option ℚ) × (String → Option (String × Edge))),
      ((nbs.foldl (relaxStep unvisited cur) dp).2 x = dp.2 x) := by
  intro nbs
  induction nbs with
  | nil => intro dp; rfl
  | cons nb rest ih =>
    intro dp
    simp only [List.foldl_cons]
    rw [ih]
    unfold relaxStep
    by_cases hmem : nb.node ∈ unvisited
    · simp only [hmem, if_true]
      split
      · have hne : x ≠ nb.node := fun h => hx (h ▸ hmem)
        simp [hne]
      · rfl
    · simp [hmem]

/-- The Dijkstra loop never writes a predecessor for a node outside the
initial unvisited set. -/
theorem dijkstraLoop_prev_eq (graph : String → List Nb) (endId : String) :
    ∀ (fuel : Nat) (dist : String → Option ℚ)
      (prevm : String → Option (String × Edge)) (unvisited : List String)
      (x : String), x ∉ unvisited →
      (dijkstraLoop graph endId fuel dist prevm unvisited).2 x = prevm x := by
  intro fuel
  induction fuel with
  | zero => intro dist prevm unvisited x _; rfl
  | succ n ih =>
    intro dist prevm unvisited x hx
    cases unvisited with
    | nil => rfl
    | cons u us =>
      simp only [dijkstraLoop]
      cases hsel : selectMin dist (u :: us) with
      | mk copt m =>
        cases copt with
        | none => rfl
        | some cur =>
          by_cases hend : cur = endId
          · simp [hend]
          · simp only [hend, if_false]
            have hx' : x ∉ (u :: us).erase cur :=
              fun hmem => hx (List.mem_of_mem_erase hmem)
            rw [ih _ _ _ x hx']
            exact relax_fold_prev_eq _ cur x hx' _ _

/-- The minimum scan returns `null` when every unvisited node is at
infinite distance. -/
theorem selectMin_all_none (dist : String → Option ℚ) :
    ∀ (l : List String), (∀ u ∈ l, dist u = none) →
      selectMin dist l = (none, none) := by
  have key : ∀ (l : List String) (acc : Option String × Option ℚ),
      (∀ u ∈ l, dist u = none) →
      l.foldl (fun acc n => if qlt (dist n) acc.2 then (some n, dist n) else acc) acc
        = acc := by
    intro l
    induction l with
    | nil => intro acc _; rfl
    | cons u l' ih =>
      intro acc hall
      simp only [List.foldl_cons]
      rw [hall u (List.mem_cons_self _ _)]
      simp only [qlt, Bool.false_eq_true, if_false]
      exact ih acc (fun v hv => hall v (List.mem_cons_of_mem _ hv))
  intro l h
  exact key l (none, none) h

/-- An id that is not a node id cannot be a known node. -/
theorem nodesById_eq_none_iff (s : Setup) (x : String) :
    nodesById s x = none ↔ x ∉ s.nodes.map (fun n => n.id) := by
  unfold nodesById
  rw [List.find?_eq_none]
  simp

/-- `findDetour` fails when the destination id is not a node. -/
theorem findDetour_unknown_end (s : Setup) (startId endId : String)
    (ex : List String) (h : endId ∉ s.nodes.map (fun n => n.id)) :
    findDetour s startId endId ex = none := by
  have hx : endId ∉ jsDedup (s.nodes.map (fun n => n.id)) :=
    fun hm => h ((jsDedup_mem endId _).mp hm)
  have hprev := dijkstraLoop_prev_eq (buildGraph s.edges ex) endId
    (jsDedup (s.nodes.map (fun n => n.id))).length
    (fun i => if i = startId then some 0 else none) (fun _ => none)
    (jsDedup (s.nodes.map (fun n => n.id))) endId hx
  simp only [findDetour, hprev]

/-- `findDetour` fails when the start id is not a node: nothing is ever
reachable, so the loop breaks with an empty predecessor map. -/
theorem findDetour_unknown_start (s : Setup) (startId endId : String)
    (ex : List String) (h : startId ∉ s.nodes.map (fun n => n.id)) :
    findDetour s startId endId ex = none := by
  have hx : startId ∉ jsDedup (s.nodes.map (fun n => n.id)) :=
    fun hm => h ((jsDedup_mem startId _).mp hm)
  have hall : ∀ u ∈ jsDedup (s.nodes.map (fun n => n.id)),
      (fun i => if i = startId then some 0 else none) u = (none : Option ℚ) := by
    intro u hu
    have : u ≠ startId := fun hequ => hx (hequ ▸ hu)
    simp [this]
  have hloop : (dijkstraLoop (buildGraph s.edges ex) endId
      (jsDedup (s.nodes.map (fun n => n.id))).length
      (fun i => if i = startId then some 0 else none) (fun _ => none)
      (jsDedup (s.nodes.map (fun n => n.id)))).2 endId = none := by
    cases hcase : jsDedup (s.nodes.map (fun n => n.id)) with
    | nil => simp [dijkstraLoop]
    | cons u us =>
      have hsel := selectMin_all_none (fun i => if i = startId then some 0 else none)
        (u :: us) (by rw [← hcase]; exact hall)
      simp [dijkstraLoop, hsel]
  simp only [findDetour, hloop]

end CacheSymmetrySupport

section CacheSymmetryMain

/-- The cluster of an unknown id is the singleton of that id. -/
theorem getCluster_unknown (s : Setup) (x : String) (h : nodesById s x = none) :
    getCluster s x = [x] := by
  unfold getCluster
  rw [h]

/-- The junction representative of an unknown id's cluster is the id
itself. -/
theorem junctionRep_unknown (s : Setup) (x : String) (h : nodesById s x = none) :
    junctionRep s [x] = x := by
  unfold junctionRep
  rw [List.find?_cons]
  rw [h]
  rfl

/-- Path reconstruction never shortens its accumulator. -/
theorem walkPath_length_ge (prevm : String → Option (String × Edge)) :
    ∀ (fuel : Nat) (cur : String) (acc : List Edge),
      acc.length ≤ (walkPath prevm fuel cur acc).length := by
  intro fuel
  induction fuel with
  | zero => intro cur acc; simp [walkPath]
  | succ n ih =>
    intro cur acc
    simp only [walkPath]
    cases hp : prevm cur with
    | none => simp
    | some pe => exact le_trans (by simp) (ih pe.1 (pe.2 :: acc))

/-- A found detour path is never the empty edge list. -/
theorem findDetour_some_ne_nil (s : Setup) (a b : String) (ex : List String)
    (p : List Edge) (h : findDetour s a b ex = some p) : p ≠ [] := by
  simp only [findDetour] at h
  cases hprev : (dijkstraLoop (buildGraph s.edges ex) b
      (jsDedup (s.nodes.map (fun n => n.id))).length
      (fun i => if i = a then some 0 else none) (fun _ => none)
      (jsDedup (s.nodes.map (fun n => n.id)))).2 b with
  | none => rw [hprev] at h; exact absurd h (by simp)
  | some pe =>
    rw [hprev] at h
    simp only [Option.some_inj] at h
    have hlen : 1 ≤ p.length := by
      rw [← h]
      simp only [walkPath, hprev]
      exact le_trans (by simp) (walkPath_length_ge _ _ _ [pe.2])
    intro hnil
    rw [hnil] at hlen
    simp at hlen

/-- C4: evaluating `calculateNetworkDistance(A,B)` and then
`calculateNetworkDistance(B,A)` on the shared cache yields the same
value, and the cache symmetry invariant — whatever is cached under a
key pair is cached identically under the swapped pair — is preserved,
for every graph, every symmetric starting cache, and every dash-free id
pair (node ids contain no dash, so distinct pairs cannot collide on one
concatenated cache key). -/
theorem calculateNetworkDistance_symm (s : Setup) (euclid : Node → Node → ℚ)
    (c : Cache) (A B : String) (hA : noDash A) (hB : noDash B) (hc : SymmCache c) :
    (calculateNetworkDistance s euclid c A B).1 =
      (calculateNetworkDistance s euclid
        (calculateNetworkDistance s euclid c A B).2 B A).1 ∧
    SymmCache (calculateNetworkDistance s euclid
      (calculateNetworkDistance s euclid c A B).2 B A).2 := by
  have hBA := hc A B hA hB
  cases h1 : c (cacheKey A B) with
  | some v =>
    have h2 : c (cacheKey B A) = some v := by rw [← hBA]; exact h1
    constructor
    · simp only [calculateNetworkDistance, h1, h2]
    · simp only [calculateNetworkDistance, h1, h2]
      exact hc
  | none =>
    have h2 : c (cacheKey B A) = none := by rw [← hBA]; exact h1
    cases hd : findDirect s.edges (getCluster s A) (getCluster s B) with
    | some e =>
      have hins : cacheInsert c (cacheKey A B) (cacheKey B A) (e.lengthKm.getD 0)
          (cacheKey B A) = some (e.lengthKm.getD 0) := by simp [cacheInsert]
      constructor
      · simp only [calculateNetworkDistance, h1, h2, hd, hins]
      · simp only [calculateNetworkDistance, h1, h2, hd, hins]
        exact cacheInsert_symm hA hB hc _
    | none =>
      cases hp : findDetour s (junctionRep s (getCluster s A))
          (junctionRep s (getCluster s B)) [] with
      | some p =>
        have hne := findDetour_some_ne_nil s _ _ [] p hp
        have hplen : p.length > 0 := List.length_pos.mpr hne
        have hins : cacheInsert c (cacheKey A B) (cacheKey B A) (sumLen p)
            (cacheKey B A) = some (sumLen p) := by simp [cacheInsert]
        constructor
        · simp only [calculateNetworkDistance, h1, h2, hd, hp, hplen, if_true, hins]
        · simp only [calculateNetworkDistance, h1, h2, hd, hp, hplen, if_true, hins]
          exact cacheInsert_symm hA hB hc _
      | none =>
        cases hfa : nodesById s A with
        | some fn =>
          cases hfb : nodesById s B with
          | some tn =>
            have hins : cacheInsert c (cacheKey A B) (cacheKey B A)
                (euclid fn tn / s.scalePxPerKm) (cacheKey B A) =
                some (euclid fn tn / s.scalePxPerKm) := by simp [cacheInsert]
            constructor
            · simp only [calculateNetworkDistance, h1, h2, hd, hp, hfa, hfb, hins]
            · simp only [calculateNetworkDistance, h1, h2, hd, hp, hfa, hfb, hins]
              exact cacheInsert_symm hA hB hc _
          | none =>
            have hd2 : findDirect s.edges (getCluster s B) (getCluster s A) = none :=
              findDirect_swap_none _ _ _ hd
            have hrepB : junctionRep s (getCluster s B) = B := by
              rw [getCluster_unknown s B hfb, junctionRep_unknown s B hfb]
            have hBnotin : B ∉ s.nodes.map (fun n => n.id) :=
              (nodesById_eq_none_iff s B).mp hfb
            have hp2 : findDetour s (junctionRep s (getCluster s B))
                (junctionRep s (getCluster s A)) [] = none := by
              rw [hrepB]
              exact findDetour_unknown_start s B _ [] hBnotin
            constructor
            · simp only [calculateNetworkDistance, h1, h2, hd, hp, hfa, hfb, hd2, hp2]
            · simp only [calculateNetworkDistance, h1, h2, hd, hp, hfa, hfb, hd2, hp2]
              exact hc
        | none =>
          have hd2 : findDirect s.edges (getCluster s B) (getCluster s A) = none :=
            findDirect_swap_none _ _ _ hd
          have hrepA : junctionRep s (getCluster s A) = A := by
            rw [getCluster_unknown s A hfa, junctionRep_unknown s A hfa]
          have hAnotin : A ∉ s.nodes.map (fun n => n.id) :=
            (nodesById_eq_none_iff s A).mp hfa
          have hp2 : findDetour s (junctionRep s (getCluster s B))
              (junctionRep s (getCluster s A)) [] = none := by
            rw [hrepA]
            exact findDetour_unknown_end s _ A [] hAnotin
          cases hfb : nodesById s B with
          | some tn =>
            constructor
            · simp only [calculateNetworkDistance, h1, h2, hd, hp, hfa, hfb, hd2, hp2]
            · simp only [calculateNetworkDistance, h1, h2, hd, hp, hfa, hfb, hd2, hp2]
              exact hc
          | none =>
            constructor
            · simp only [calculateNetworkDistance, h1, h2, hd, hp, hfa, hfb, hd2, hp2]
            · simp only [calculateNetworkDistance, h1, h2, hd, hp, hfa, hfb, hd2, hp2]
              exact hc

/-- Witness for C4: the theorem applied at a concrete graph, cache, and
id pair, all hypotheses discharged by evaluation. -/
theorem calculateNetworkDistance_symm_witness :
    (calculateNetworkDistance sDisc (fun _ _ => 5) (fun _ => none) "A" "B").1 =
      (calculateNetworkDistance sDisc (fun _ _ => 5)
        (calculateNetworkDistance sDisc (fun _ _ => 5) (fun _ => none) "A" "B").2
        "B" "A").1 ∧
    SymmCache (calculateNetworkDistance sDisc (fun _ _ => 5)
      (calculateNetworkDistance sDisc (fun _ _ => 5) (fun _ => none) "A" "B").2
      "B" "A").2 :=
  calculateNetworkDistance_symm sDisc (fun _ _ => 5) (fun _ => none) "A" "B"
    (by decide) (by decide) (fun a b _ _ => rfl)

end CacheSymmetryMain

/-! ### C6: blocked-edge replacement -/

section DetourEngine

/-- C6 (amended): `replaceBlockedEdges` is total given a depot (the
embedding returns `some` on every input with a depot node, never
throwing), and in the simple variant every blocked edge of the planned
input is handled from the walk state reached at it: when
`findDetour(current, next, [edge.id])` returns a (necessarily
non-empty) path, the path's edges are appended each tagged
`isDetour: true` and exactly one `DetourRecord` carrying the original
edge, the detour edges, and the start and end nodes is appended; when
it returns `null`, the blocked edge itself is appended tagged
`isDetour: false` and no record is added.  The bridging variant behaves
identically on every edge that touches the current position (but see
the counterexample for blocked edges it cannot reach). -/
theorem replaceBlockedEdges_detour_semantics :
    (∀ (s : Setup) (st : RouteState) (e : Edge) (p : List Edge),
      e.blocked = true →
      findDetour s st.current (jsNextNode st.current e) [e.id] = some p → p ≠ [] →
      stepSimple s st e =
        ⟨jsNextNode st.current e,
         st.resultEdges ++ p.map (fun de => ⟨de, true⟩),
         st.detours ++ [⟨e, p, st.current, jsNextNode st.current e⟩]⟩) ∧
    (∀ (s : Setup) (st : RouteState) (e : Edge),
      e.blocked = true →
      findDetour s st.current (jsNextNode st.current e) [e.id] = none →
      stepSimple s st e =
        ⟨jsNextNode st.current e, st.resultEdges ++ [⟨e, false⟩], st.detours⟩) ∧
    (∀ (s : Setup) (init : RouteState) (pre : List Edge) (e : Edge),
      (pre ++ [e]).foldl (stepSimple s) init =
        stepSimple s (pre.foldl (stepSimple s) init) e) ∧
    (∀ (s td : Setup) (dep : Node) (edges : List Edge),
      depotOf td = some dep →
      replaceBlockedEdgesSimple s td edges =
        some ((edges.foldl (stepSimple s) ⟨dep.id, [], []⟩).resultEdges,
              (edges.foldl (stepSimple s) ⟨dep.id, [], []⟩).detours)) ∧
    (∀ (s : Setup) (st : RouteState) (e : Edge),
      e.a = st.current ∨ e.b = st.current →
      stepBridge s st e = stepSimple s st e) := by
  refine ⟨?_, ?_, ?_, ?_, ?_⟩
  · intro s st e p hb hf hne
    unfold stepSimple blockedPhase
    rw [hb, hf]
    simp only [if_true]
    have : p.length > 0 := List.length_pos.mpr hne
    simp [this]
  · intro s st e hb hf
    unfold stepSimple blockedPhase
    rw [hb, hf]
    simp
  · intro s init pre e
    rw [List.foldl_append]
    rfl
  · intro s td dep edges hdep
    unfold replaceBlockedEdgesSimple
    rw [hdep]
    rfl
  · intro s st e hconn
    unfold stepBridge stepSimple
    rcases hconn with h | h
    · simp [h, jsNextNode]
    · by_cases ha : e.a = st.current
      · simp [ha, jsNextNode]
      · simp [ha, h, jsNextNode]

/-- The detour graph for the C6 witness: the depot-to-`X` edge is
blocked but a two-edge alternative through `Y` exists. -/
def sAlt : Setup :=
  { nodes := [⟨"D", 0, 0, "depot"⟩, ⟨"X", 2, 0, "junction"⟩, ⟨"Y", 1, 1, "junction"⟩],
    edges := [⟨"b1", "D", "X", some 1, true⟩, ⟨"a1", "D", "Y", some 1, false⟩,
              ⟨"a2", "Y", "X", some 1, false⟩],
    scalePxPerKm := 1 }

/-- Witness for C6's amended theorem: the detour case applied at a
concrete blocked edge, all hypotheses discharged by evaluation. -/
theorem replaceBlockedEdges_detour_semantics_witness :
    stepSimple sAlt ⟨"D", [], []⟩ ⟨"b1", "D", "X", some 1, true⟩ =
      ⟨jsNextNode "D" ⟨"b1", "D", "X", some 1, true⟩,
       [] ++ [⟨"a1", "D", "Y", some 1, false⟩, ⟨"a2", "Y", "X", some 1, false⟩].map
         (fun de => ⟨de, true⟩),
       [] ++ [⟨⟨"b1", "D", "X", some 1, true⟩,
              [⟨"a1", "D", "Y", some 1, false⟩, ⟨"a2", "Y", "X", some 1, false⟩],
              "D", "X"⟩]⟩ :=
  replaceBlockedEdges_detour_semantics.1 sAlt ⟨"D", [], []⟩
    ⟨"b1", "D", "X", some 1, true⟩
    [⟨"a1", "D", "Y", some 1, false⟩, ⟨"a2", "Y", "X", some 1, false⟩]
    (by decide) (by with_unfolding_all decide) (by decide)

/-- The skip graph for the C6 counterexample: the blocked edge joins an
island unreachable from the walk. -/
def sSkip : Setup :=
  { nodes := [⟨"D", 0, 0, "depot"⟩, ⟨"X", 1, 0, "junction"⟩,
              ⟨"P", 5, 0, "junction"⟩, ⟨"Q", 6, 0, "junction"⟩],
    edges := [⟨"e1", "D", "X", some 1, false⟩, ⟨"e2", "P", "Q", some 1, true⟩],
    scalePxPerKm := 1 }

set_option maxRecDepth 40000 in
set_option maxHeartbeats 1000000 in
/-- Counterexample to C6 as stated: in the bridging variant the blocked
edge `e2` touches neither side of the current position and the gap
cannot be bridged, so the bridging phase skips it before the
blocked-edge handling ever runs; no detour path exists either, yet the
output neither includes `e2` unchanged nor records a detour — the edge
is silently dropped. -/
theorem replaceBlockedEdges_skip_counterexample :
    replaceBlockedEdges sSkip sSkip
      [⟨"e1", "D", "X", some 1, false⟩, ⟨"e2", "P", "Q", some 1, true⟩] =
      some ([⟨⟨"e1", "D", "X", some 1, false⟩, false⟩], []) ∧
    (⟨"e2", "P", "Q", some 1, true⟩ : Edge).blocked = true ∧
    findDetour sSkip "X" "P" ["e2"] = none ∧
    findDetour sSkip "X" "Q" ["e2"] = none ∧
    (∀ te ∈ ([⟨⟨"e1", "D", "X", some 1, false⟩, false⟩] : List TaggedEdge),
      te.edge.id ≠ "e2") := by
  refine ⟨?_, ?_, ?_, ?_, ?_⟩ <;> with_unfolding_all decide

end DetourEngine

/-! ### C1: tour construction returns the address set -/

section NearestInsertionPerm

/-- The insertion-position scan stays within the valid range. -/
theorem bestInsertion_le (d : String → String → ℚ) (dep next : String)
    (route : List String) : bestInsertion d dep next route ≤ route.length := by
  unfold bestInsertion
  have key : ∀ (ps : List Nat) (acc : Nat × Option ℚ),
      (∀ i ∈ ps, i ≤ route.length) → acc.1 ≤ route.length →
      ((ps.foldl (fun acc i =>
        if qlt (some (insCost d dep next route i)) acc.2
        then (i, some (insCost d dep next route i)) else acc) acc).1) ≤
        route.length := by
    intro ps
    induction ps with
    | nil => intro acc _ hacc; exact hacc
    | cons i rest ih =>
      intro acc hmem hacc
      simp only [List.foldl_cons]
      refine ih _ (fun j hj => hmem j (List.mem_cons_of_mem _ hj)) ?_
      by_cases hq : qlt (some (insCost d dep next route i)) acc.2 = true
      · simpa [hq] using hmem i (List.mem_cons_self _ _)
      · simpa [hq] using hacc
  exact key _ _ (fun i hi => by
    have := List.mem_range.mp hi
    omega) (by simp)

/-- The insertion loop builds a permutation of the seeded route plus
the remaining addresses. -/
theorem niLoop_perm (d : String → String → ℚ) (dep : String) :
    ∀ (rest route : List String), (niLoop d dep rest route).Perm (route ++ rest) := by
  intro rest
  induction rest with
  | nil => intro route; simp [niLoop]
  | cons next rest' ih =>
    intro route
    simp only [niLoop]
    have h1 : (route.insertIdx (bestInsertion d dep next route) next).Perm
        (next :: route) :=
      List.perm_insertIdx next route (bestInsertion_le d dep next route)
    have h2 := ih (route.insertIdx (bestInsertion d dep next route) next)
    refine h2.trans ?_
    have h3 : ((route.insertIdx (bestInsertion d dep next route) next) ++ rest').Perm
        ((next :: route) ++ rest') := List.Perm.append_right _ h1
    refine h3.trans ?_
    have h4 : (route ++ next :: rest').Perm (next :: (route ++ rest')) :=
      List.perm_middle
    exact (List.Perm.symm h4)

end NearestInsertionPerm

section ClarkeWrightInfrastructure

/-- Folded pointwise override with a constant value: members of the
list map to the constant, others keep their old value. -/
theorem foldConst_eq (c : Nat) :
    ∀ (l : List String) (m0 : String → Nat) (x : String),
      l.foldl (fun m addr => fun y => if y = addr then c else m y) m0 x =
        if x ∈ l then c else m0 x := by
  intro l
  induction l with
  | nil => intro m0 x; simp
  | cons a l' ih =>
    intro m0 x
    simp only [List.foldl_cons]
    rw [ih]
    by_cases hx : x ∈ l'
    · simp [hx]
    · by_cases hxa : x = a
      · simp [hx, hxa]
      · simp [hx, hxa]

/-- Folded pointwise override along an index-value list: an absent
value keeps its old image. -/
theorem foldUpd_not_mem :
    ∀ (ps : List (Nat × String)) (m0 : String → Nat) (x : String),
      x ∉ ps.map Prod.snd →
      ps.foldl (fun m p => fun y => if y = p.2 then p.1 else m y) m0 x = m0 x := by
  intro ps
  induction ps with
  | nil => intro m0 x _; rfl
  | cons p rest ih =>
    intro m0 x hx
    simp only [List.map_cons, List.mem_cons] at hx
    push_neg at hx
    simp only [List.foldl_cons]
    rw [ih _ _ hx.2]
    simp [hx.1]

/-- Folded pointwise override along an index-value list with distinct
values: each value maps to its paired index. -/
theorem foldUpd_mem :
    ∀ (ps : List (Nat × String)) (m0 : String → Nat) (i : Nat) (x : String),
      (ps.map Prod.snd).Nodup → (i, x) ∈ ps →
      ps.foldl (fun m p => fun y => if y = p.2 then p.1 else m y) m0 x = i := by
  intro ps
  induction ps with
  | nil => intro m0 i x _ hm; simp at hm
  | cons p rest ih =>
    intro m0 i x hnd hm
    simp only [List.map_cons, List.nodup_cons] at hnd
    simp only [List.foldl_cons]
    rcases List.mem_cons.mp hm with rfl | hm'
    · have hx : x ∉ rest.map Prod.snd := by simpa using hnd.1
      rw [foldUpd_not_mem _ _ _ hx]
      simp
    · have hxp : x ≠ p.2 := by
        intro hx
        exact hnd.1 (hx ▸ List.mem_map.mpr ⟨(i, x), hm', rfl⟩)
      exact ih _ i x hnd.2 hm'

/-- Both members of a generated address pair come from the list, and
they are distinct when the list has no duplicates. -/
theorem pairsAux_mem :
    ∀ (l : List String) (p : String × String), p ∈ pairsAux l →
      p.1 ∈ l ∧ p.2 ∈ l := by
  intro l
  induction l with
  | nil => intro p hp; simp [pairsAux] at hp
  | cons x xs ih =>
    intro p hp
    simp only [pairsAux, List.mem_append, List.mem_map] at hp
    rcases hp with ⟨y, hy, rfl⟩ | hp'
    · exact ⟨List.mem_cons_self _ _, List.mem_cons_of_mem _ hy⟩
    · obtain ⟨h1, h2⟩ := ih p hp'
      exact ⟨List.mem_cons_of_mem _ h1, List.mem_cons_of_mem _ h2⟩

/-- Every unordered pair of distinct list members is generated in one
of its two orientations. -/
theorem pairsAux_covers :
    ∀ (l : List String) (u v : String), u ∈ l → v ∈ l → u ≠ v →
      (u, v) ∈ pairsAux l ∨ (v, u) ∈ pairsAux l := by
  intro l
  induction l with
  | nil => intro u v hu _ _; simp at hu
  | cons x xs ih =>
    intro u v hu hv huv
    rcases List.mem_cons.mp hu with rfl | hu'
    · rcases List.mem_cons.mp hv with rfl | hv'
      · exact absurd rfl huv
      · exact Or.inl (by simp [pairsAux, List.mem_append]; exact Or.inl hv')
    · rcases List.mem_cons.mp hv with rfl | hv'
      · exact Or.inr (by simp [pairsAux, List.mem_append]; exact Or.inl hu')
      · rcases ih u v hu' hv' huv with h | h
        · exact Or.inl (by simp [pairsAux, List.mem_append]; right; exact h)
        · exact Or.inr (by simp [pairsAux, List.mem_append]; right; exact h)

/-- Replacing one slot of a routes array, as a multiset equation. -/
theorem flatten_set_perm (l : List (List String)) :
    ∀ (i : Nat), i < l.length → ∀ (r : List String),
      ((l.set i r).flatten ++ l.getD i []).Perm (l.flatten ++ r) := by
  induction l with
  | nil => intro i hi; simp at hi
  | cons h t ih =>
    intro i hi r
    cases i with
    | zero =>
      simp only [List.set_cons_zero, List.flatten_cons, List.getD_cons_zero]
      have : (r ++ t.flatten ++ h).Perm (h ++ (r ++ t.flatten)) :=
        List.perm_append_comm
      refine this.trans ?_
      have : (r ++ t.flatten).Perm (t.flatten ++ r) := List.perm_append_comm
      simpa [List.append_assoc] using List.Perm.append_left h this
    | succ j =>
      simp only [List.set_cons_succ, List.flatten_cons, List.getD_cons_succ]
      have hj : j < t.length := by simpa using hi
      have hstep := List.Perm.append_left h (ih j hj r)
      have e1 : h ++ (t.set j r).flatten ++ t.getD j [] =
          h ++ ((t.set j r).flatten ++ t.getD j []) := by rw [List.append_assoc]
      have e2 : h ++ t.flatten ++ r = h ++ (t.flatten ++ r) := by
        rw [List.append_assoc]
      rw [e1, e2]
      exact hstep

end ClarkeWrightInfrastructure

section ClarkeWrightInvariant

/-- The Clarke-Wright merge-state invariant: the routes hold exactly
the addresses (as a multiset), every address sits in the route its
index points to, and every route member points back at its route. -/
def CWInv (addresses : List String) (st : CWState) : Prop :=
  st.routes.flatten.Perm addresses ∧
  (∀ a ∈ addresses, st.a2r a < st.routes.length ∧ a ∈ st.routes.getD (st.a2r a) []) ∧
  (∀ (k : Nat) (a : String), a ∈ st.routes.getD k [] → a ∈ addresses ∧ st.a2r a = k)

/-- `getD` after `set` at the written index. -/
theorem getD_set_self (l : List (List String)) (i : Nat) (hi : i < l.length)
    (r : List String) : (l.set i r).getD i [] = r := by
  rw [List.getD_eq_getElem?_getD, List.getElem?_set_self hi]
  rfl

/-- `getD` after `set` at another index. -/
theorem getD_set_ne (l : List (List String)) (i j : Nat) (hij : i ≠ j)
    (r : List String) : (l.set i r).getD j [] = l.getD j [] := by
  rw [List.getD_eq_getElem?_getD, List.getElem?_set_ne hij,
    ← List.getD_eq_getElem?_getD]

/-- Flattening singleton routes recovers the address list. -/
theorem flatten_singletons (l : List String) :
    (l.map (fun a => [a])).flatten = l := by
  induction l with
  | nil => rfl
  | cons a t ih => simp [ih]

/-- The initial Clarke-Wright state satisfies the invariant. -/
theorem initCW_inv (addresses : List String) (hnd : addresses.Nodup) :
    CWInv addresses (initCW addresses) := by
  have ha2r : ∀ (k : Nat) (hk : k < addresses.length),
      (initCW addresses).a2r addresses[k] = k := by
    intro k hk
    unfold initCW
    refine foldUpd_mem addresses.enum _ k addresses[k] ?_ ?_
    · rw [List.enum_map_snd]
      exact hnd
    · rw [List.mem_enum_iff_getElem?]
      exact List.getElem?_eq_getElem hk
  have hroutes : ∀ (k : Nat) (hk : k < addresses.length),
      (initCW addresses).routes.getD k [] = [addresses[k]] := by
    intro k hk
    unfold initCW
    simp only [List.getD_eq_getElem?_getD, List.getElem?_map,
      List.getElem?_eq_getElem hk]
    rfl
  refine ⟨?_, ?_, ?_⟩
  · unfold initCW
    simp only [flatten_singletons]
    exact List.Perm.refl _
  · intro a ha
    obtain ⟨k, hk, rfl⟩ := List.mem_iff_getElem.mp ha
    rw [ha2r k hk, hroutes k hk]
    constructor
    · unfold initCW
      simpa using hk
    · simp
  · intro k a hak
    by_cases hk : k < addresses.length
    · rw [hroutes k hk] at hak
      simp only [List.mem_singleton] at hak
      subst hak
      exact ⟨List.getElem_mem _, ha2r k hk⟩
    · exfalso
      have hlen : (initCW addresses).routes.length ≤ k := by
        unfold initCW
        simpa using Nat.le_of_not_lt hk
      rw [List.getD_eq_default _ _ hlen] at hak
      simp at hak

/-- A merge update — replacing the first route by any rearrangement of
the two routes' members, blanking the second slot, and repointing the
merged members — preserves the invariant. -/
theorem cwUpdate_inv (addresses : List String) (st : CWState)
    (hinv : CWInv addresses st) (a1 a2 : String)
    (h1 : a1 ∈ addresses) (h2 : a2 ∈ addresses)
    (hne : st.a2r a1 ≠ st.a2r a2) (new : List String)
    (hperm : new.Perm (st.routes.getD (st.a2r a1) [] ++ st.routes.getD (st.a2r a2) [])) :
    CWInv addresses
      { routes := (st.routes.set (st.a2r a1) new).set (st.a2r a2) [],
        a2r := new.foldl (fun m addr => fun x => if x = addr then st.a2r a1 else m x)
          st.a2r } := by
  obtain ⟨hjoin, hinv2, hinv3⟩ := hinv
  have hi1 : st.a2r a1 < st.routes.length := (hinv2 a1 h1).1
  have hi2 : st.a2r a2 < st.routes.length := (hinv2 a2 h2).1
  have hmemnew : ∀ x, x ∈ new ↔
      x ∈ st.routes.getD (st.a2r a1) [] ∨ x ∈ st.routes.getD (st.a2r a2) [] := by
    intro x
    rw [hperm.mem_iff, List.mem_append]
  have ha2r' : ∀ x,
      new.foldl (fun m addr => fun y => if y = addr then st.a2r a1 else m y) st.a2r x =
        if x ∈ new then st.a2r a1 else st.a2r x :=
    fun x => foldConst_eq (st.a2r a1) new st.a2r x
  have hlen : ((st.routes.set (st.a2r a1) new).set (st.a2r a2) []).length =
      st.routes.length := by simp [List.length_set]
  have hget_i2 : ((st.routes.set (st.a2r a1) new).set (st.a2r a2) []).getD
      (st.a2r a2) [] = [] :=
    getD_set_self _ _ (by simpa [List.length_set] using hi2) _
  have hget_i1 : ((st.routes.set (st.a2r a1) new).set (st.a2r a2) []).getD
      (st.a2r a1) [] = new := by
    rw [getD_set_ne _ _ _ (Ne.symm hne) _, getD_set_self _ _ hi1 _]
  have hget_other : ∀ k, k ≠ st.a2r a1 → k ≠ st.a2r a2 →
      ((st.routes.set (st.a2r a1) new).set (st.a2r a2) []).getD k [] =
        st.routes.getD k [] := by
    intro k hk1 hk2
    rw [getD_set_ne _ _ _ (Ne.symm hk2) _, getD_set_ne _ _ _ (Ne.symm hk1) _]
  have hmem_idx : ∀ x ∈ addresses, x ∈ new →
      st.a2r x = st.a2r a1 ∨ st.a2r x = st.a2r a2 := by
    intro x _ hx
    rcases (hmemnew x).mp hx with h | h
    · exact Or.inl (hinv3 _ x h).2
    · exact Or.inr (hinv3 _ x h).2
  refine ⟨?_, ?_, ?_⟩
  · -- flatten permutation
    have s1 := flatten_set_perm st.routes (st.a2r a1) hi1 new
    have s2 := flatten_set_perm (st.routes.set (st.a2r a1) new) (st.a2r a2)
      (by simpa [List.length_set] using hi2) []
    rw [getD_set_ne _ _ _ hne _] at s2
    have hcomb : (((st.routes.set (st.a2r a1) new).set (st.a2r a2) []).flatten ++
        (st.routes.getD (st.a2r a2) [] ++ st.routes.getD (st.a2r a1) [])).Perm
        (st.routes.flatten ++ (st.routes.getD (st.a2r a2) [] ++
          st.routes.getD (st.a2r a1) [])) := by
      have step1 : (((st.routes.set (st.a2r a1) new).set (st.a2r a2) []).flatten ++
          (st.routes.getD (st.a2r a2) [] ++ st.routes.getD (st.a2r a1) [])).Perm
          ((st.routes.set (st.a2r a1) new).flatten ++ st.routes.getD (st.a2r a1) []) := by
        have hs2 : (((st.routes.set (st.a2r a1) new).set (st.a2r a2) []).flatten ++
            st.routes.getD (st.a2r a2) []).Perm
            ((st.routes.set (st.a2r a1) new).flatten) := by
          simpa using s2
        have := List.Perm.append_right (st.routes.getD (st.a2r a1) []) hs2
        simpa [List.append_assoc] using this
      refine step1.trans ?_
      refine s1.trans ?_
      have hn : (st.routes.flatten ++ new).Perm
          (st.routes.flatten ++ (st.routes.getD (st.a2r a2) [] ++
            st.routes.getD (st.a2r a1) [])) := by
        refine List.Perm.append_left _ (hperm.trans ?_)
        exact List.perm_append_comm
      exact hn
    have := (List.perm_append_right_iff _).mp hcomb
    exact this.trans hjoin
  · -- every address is found at its pointed route
    intro a ha
    dsimp only
    rw [ha2r' a]
    by_cases hmem : a ∈ new
    · rw [if_pos hmem, hget_i1]
      exact ⟨by rw [hlen]; exact hi1, hmem⟩
    · rw [if_neg hmem]
      have hnr1 : a ∉ st.routes.getD (st.a2r a1) [] := by
        intro hc
        exact hmem ((hmemnew a).mpr (Or.inl hc))
      have hnr2 : a ∉ st.routes.getD (st.a2r a2) [] := by
        intro hc
        exact hmem ((hmemnew a).mpr (Or.inr hc))
      obtain ⟨hka, hma⟩ := hinv2 a ha
      have hk1 : st.a2r a ≠ st.a2r a1 := fun h => hnr1 (h ▸ hma)
      have hk2 : st.a2r a ≠ st.a2r a2 := fun h => hnr2 (h ▸ hma)
      rw [hget_other _ hk1 hk2]
      exact ⟨by rw [hlen]; exact hka, hma⟩
  · -- every route member points back
    intro k a hak
    dsimp only at hak ⊢
    by_cases hk2 : k = st.a2r a2
    · rw [hk2, hget_i2] at hak
      simp at hak
    · by_cases hk1 : k = st.a2r a1
      · rw [hk1, hget_i1] at hak
        have haddr : a ∈ addresses := by
          rcases (hmemnew a).mp hak with h | h
          · exact (hinv3 _ a h).1
          · exact (hinv3 _ a h).1
        rw [ha2r' a, if_pos hak]
        exact ⟨haddr, hk1.symm⟩
      · rw [hget_other k hk1 hk2] at hak
        obtain ⟨haddr, hidx⟩ := hinv3 k a hak
        have hmem : a ∉ new := by
          intro hc
          rcases hmem_idx a haddr hc with h | h
          · exact hk1 (by rw [← hidx, h])
          · exact hk2 (by rw [← hidx, h])
        rw [ha2r' a, if_neg hmem]
        exact ⟨haddr, hidx⟩

end ClarkeWrightInvariant

section ClarkeWrightMerge

/-- `x` sits at an end of the route `r`. -/
def endOf (r : List String) (x : String) : Prop :=
  r.head? = some x ∨ r.getLast? = some x

/-- The Boolean route-end check in propositional form. -/
theorem isRouteEnd_iff (st : CWState) (u : String) :
    isRouteEnd st u = true ↔ endOf (st.routes.getD (st.a2r u) []) u := by
  simp [isRouteEnd, endOf]

/-- A route end is a route member. -/
theorem endOf_mem {r : List String} {x : String} (h : endOf r x) : x ∈ r := by
  rcases h with h | h
  · exact List.mem_of_mem_head? (by simp [h])
  · exact List.mem_of_mem_getLast? (by simp [h])

/-- Head of an append with a non-empty left part. -/
theorem head?_append_left (l1 l2 : List String) (h : l1 ≠ []) :
    (l1 ++ l2).head? = l1.head? := by
  cases l1 with
  | nil => exact absurd rfl h
  | cons x xs => simp

/-- Last of an append with a non-empty right part. -/
theorem getLast?_append_right (l1 l2 : List String) (h : l2 ≠ []) :
    (l1 ++ l2).getLast? = l2.getLast? := by
  rw [List.getLast?_append]
  cases hl : l2.getLast? with
  | none =>
    exfalso
    cases l2 with
    | nil => exact h rfl
    | cons x xs => simp [List.getLast?_eq_getLast] at hl
  | some v => rfl

/-- Every end of one of the four merge concatenations is an end of one
of the two merged routes. -/
theorem endOf_concat (r1 r2 new : List String) (h1 : r1 ≠ []) (h2 : r2 ≠ [])
    (hcase : new = r1 ++ r2 ∨ new = r2 ++ r1 ∨ new = r1 ++ r2.reverse ∨
      new = r1.reverse ++ r2) :
    ∀ x, endOf new x → endOf r1 x ∨ endOf r2 x := by
  have h1r : r1.reverse ≠ [] := by simpa using h1
  have h2r : r2.reverse ≠ [] := by simpa using h2
  intro x hx
  rcases hcase with rfl | rfl | rfl | rfl
  · rcases hx with hx | hx
    · rw [head?_append_left _ _ h1] at hx
      exact Or.inl (Or.inl hx)
    · rw [getLast?_append_right _ _ h2] at hx
      exact Or.inr (Or.inr hx)
  · rcases hx with hx | hx
    · rw [head?_append_left _ _ h2] at hx
      exact Or.inr (Or.inl hx)
    · rw [getLast?_append_right _ _ h1] at hx
      exact Or.inl (Or.inr hx)
  · rcases hx with hx | hx
    · rw [head?_append_left _ _ h1] at hx
      exact Or.inl (Or.inl hx)
    · rw [getLast?_append_right _ _ h2r, List.getLast?_reverse] at hx
      exact Or.inr (Or.inl hx)
  · rcases hx with hx | hx
    · rw [head?_append_left _ _ h1r, List.head?_reverse] at hx
      exact Or.inl (Or.inr hx)
    · rw [getLast?_append_right _ _ h2] at hx
      exact Or.inr (Or.inr hx)

/-- `mergeRoutes` preserves the invariant. -/
theorem mergeRoutes_inv (addresses : List String) (st : CWState)
    (hinv : CWInv addresses st) (a1 a2 : String)
    (h1 : a1 ∈ addresses) (h2 : a2 ∈ addresses) :
    CWInv addresses (mergeRoutes st a1 a2) := by
  simp only [mergeRoutes]
  by_cases hii : st.a2r a1 = st.a2r a2
  · rw [if_pos hii]
    exact hinv
  · rw [if_neg hii]
    split
    · exact hinv
    · rename_i new heq
      split at heq
      · rw [Option.some_inj] at heq
        subst heq
        exact cwUpdate_inv addresses st hinv a1 a2 h1 h2 hii _ (List.Perm.refl _)
      · split at heq
        · rw [Option.some_inj] at heq
          subst heq
          exact cwUpdate_inv addresses st hinv a1 a2 h1 h2 hii _
            List.perm_append_comm
        · split at heq
          · rw [Option.some_inj] at heq
            subst heq
            exact cwUpdate_inv addresses st hinv a1 a2 h1 h2 hii _
              (List.Perm.append_left _ (List.reverse_perm _))
          · split at heq
            · rw [Option.some_inj] at heq
              subst heq
              exact cwUpdate_inv addresses st hinv a1 a2 h1 h2 hii _
                (List.Perm.append_right _ (List.reverse_perm _))
            · exact absurd heq (by simp)

/-- `cwStep` preserves the invariant. -/
theorem cwStep_inv (addresses : List String) (st : CWState)
    (hinv : CWInv addresses st) (sv : Saving)
    (hmi : sv.i ∈ addresses) (hmj : sv.j ∈ addresses) :
    CWInv addresses (cwStep st sv) := by
  unfold cwStep
  split
  · exact mergeRoutes_inv addresses st hinv sv.i sv.j hmi hmj
  · exact hinv

end ClarkeWrightMerge

section ClarkeWrightProgress

/-- Anatomy of a merge: either the state is unchanged (same route, or
an endpoint condition failed), or the two routes were concatenated in
one of the four orientations, the second slot blanked, and the merged
members repointed. -/
theorem mergeRoutes_cases (st : CWState) (a1 a2 : String) :
    (mergeRoutes st a1 a2 = st ∧
      (st.a2r a1 = st.a2r a2 ∨
        ¬(endOf (st.routes.getD (st.a2r a1) []) a1 ∧
          endOf (st.routes.getD (st.a2r a2) []) a2))) ∨
    (st.a2r a1 ≠ st.a2r a2 ∧ ∃ new,
      (new = st.routes.getD (st.a2r a1) [] ++ st.routes.getD (st.a2r a2) [] ∨
       new = st.routes.getD (st.a2r a2) [] ++ st.routes.getD (st.a2r a1) [] ∨
       new = st.routes.getD (st.a2r a1) [] ++ (st.routes.getD (st.a2r a2) []).reverse ∨
       new = (st.routes.getD (st.a2r a1) []).reverse ++ st.routes.getD (st.a2r a2) []) ∧
      mergeRoutes st a1 a2 =
        { routes := (st.routes.set (st.a2r a1) new).set (st.a2r a2) [],
          a2r := new.foldl
            (fun m addr => fun x => if x = addr then st.a2r a1 else m x) st.a2r }) := by
  simp only [mergeRoutes]
  by_cases hii : st.a2r a1 = st.a2r a2
  · rw [if_pos hii]
    exact Or.inl ⟨rfl, Or.inl hii⟩
  · rw [if_neg hii]
    split
    · rename_i heq
      refine Or.inl ⟨rfl, Or.inr ?_⟩
      split at heq
      · exact absurd heq (by simp)
      · split at heq
        · exact absurd heq (by simp)
        · split at heq
          · exact absurd heq (by simp)
          · split at heq
            · exact absurd heq (by simp)
            · rename_i hc1 hc2 hc3 hc4
              rintro ⟨he1, he2⟩
              rcases he1 with he1 | he1 <;> rcases he2 with he2 | he2
              · exact hc4 ⟨he1, he2⟩
              · exact hc2 ⟨he1, he2⟩
              · exact hc1 ⟨he1, he2⟩
              · exact hc3 ⟨he1, he2⟩
    · rename_i new heq
      refine Or.inr ⟨hii, new, ?_, rfl⟩
      split at heq
      · rw [Option.some_inj] at heq
        exact Or.inl heq.symm
      · split at heq
        · rw [Option.some_inj] at heq
          exact Or.inr (Or.inl heq.symm)
        · split at heq
          · rw [Option.some_inj] at heq
            exact Or.inr (Or.inr (Or.inl heq.symm))
          · split at heq
            · rw [Option.some_inj] at heq
              exact Or.inr (Or.inr (Or.inr heq.symm))
            · exact absurd heq (by simp)

/-- The two merged routes are contained in every concatenation shape. -/
theorem shape_subsets {r1 r2 new : List String}
    (hshape : new = r1 ++ r2 ∨ new = r2 ++ r1 ∨ new = r1 ++ r2.reverse ∨
      new = r1.reverse ++ r2) :
    (∀ x ∈ r1, x ∈ new) ∧ (∀ x ∈ r2, x ∈ new) := by
  rcases hshape with rfl | rfl | rfl | rfl <;>
    exact ⟨fun x hx => by simp [hx], fun x hx => by simp [hx]⟩

/-- Conversely, every member of a concatenation shape comes from one of
the two merged routes. -/
theorem shape_mem {r1 r2 new : List String}
    (hshape : new = r1 ++ r2 ∨ new = r2 ++ r1 ∨ new = r1 ++ r2.reverse ∨
      new = r1.reverse ++ r2) :
    ∀ x ∈ new, x ∈ r1 ∨ x ∈ r2 := by
  rcases hshape with rfl | rfl | rfl | rfl <;>
    intro x hx <;> simpa [or_comm] using hx

/-- A node interior to its route stays interior through any merge. -/
theorem notEnd_mono (addresses : List String) (st : CWState)
    (hinv : CWInv addresses st) (a1 a2 u : String)
    (h1 : a1 ∈ addresses) (h2 : a2 ∈ addresses) (hu : u ∈ addresses)
    (hnotend : ¬ endOf (st.routes.getD (st.a2r u) []) u) :
    ¬ endOf ((mergeRoutes st a1 a2).routes.getD
      ((mergeRoutes st a1 a2).a2r u) []) u := by
  obtain ⟨hjoin, hinv2, hinv3⟩ := hinv
  rcases mergeRoutes_cases st a1 a2 with ⟨heq, _⟩ | ⟨hii, new, hshape, heq⟩
  · rw [heq]
    exact hnotend
  · rw [heq]
    dsimp only
    have hi1 : st.a2r a1 < st.routes.length := (hinv2 a1 h1).1
    have hi2 : st.a2r a2 < st.routes.length := (hinv2 a2 h2).1
    have hr1ne : st.routes.getD (st.a2r a1) [] ≠ [] := by
      intro hnil
      have := (hinv2 a1 h1).2
      rw [hnil] at this
      simp at this
    have hr2ne : st.routes.getD (st.a2r a2) [] ≠ [] := by
      intro hnil
      have := (hinv2 a2 h2).2
      rw [hnil] at this
      simp at this
    have ha2r' : ∀ x,
        new.foldl (fun m addr => fun y => if y = addr then st.a2r a1 else m y)
          st.a2r x = if x ∈ new then st.a2r a1 else st.a2r x :=
      fun x => foldConst_eq (st.a2r a1) new st.a2r x
    obtain ⟨hsub1, hsub2⟩ := shape_subsets hshape
    rw [ha2r' u]
    by_cases hmem : u ∈ new
    · rw [if_pos hmem]
      have hget : ((st.routes.set (st.a2r a1) new).set (st.a2r a2) []).getD
          (st.a2r a1) [] = new := by
        rw [getD_set_ne _ _ _ (Ne.symm hii) _, getD_set_self _ _ hi1 _]
      rw [hget]
      intro hend
      rcases endOf_concat _ _ _ hr1ne hr2ne hshape u hend with hcase | hcase
      · have humem := endOf_mem hcase
        have hidx := (hinv3 _ u humem).2
        rw [hidx] at hnotend
        exact hnotend hcase
      · have humem := endOf_mem hcase
        have hidx := (hinv3 _ u humem).2
        rw [hidx] at hnotend
        exact hnotend hcase
    · rw [if_neg hmem]
      have hnr1 : u ∉ st.routes.getD (st.a2r a1) [] := fun hc => hmem (hsub1 u hc)
      have hnr2 : u ∉ st.routes.getD (st.a2r a2) [] := fun hc => hmem (hsub2 u hc)
      obtain ⟨hka, hma⟩ := hinv2 u hu
      have hk1 : st.a2r u ≠ st.a2r a1 := fun h => hnr1 (h ▸ hma)
      have hk2 : st.a2r u ≠ st.a2r a2 := fun h => hnr2 (h ▸ hma)
      rw [getD_set_ne _ _ _ (Ne.symm hk2) _, getD_set_ne _ _ _ (Ne.symm hk1) _]
      exact hnotend

/-- Two addresses on one route stay on one route through any merge. -/
theorem sameRoute_mono (addresses : List String) (st : CWState)
    (hinv : CWInv addresses st) (a1 a2 u v : String)
    (h1 : a1 ∈ addresses) (h2 : a2 ∈ addresses)
    (hu : u ∈ addresses) (hv : v ∈ addresses)
    (h : st.a2r u = st.a2r v) :
    (mergeRoutes st a1 a2).a2r u = (mergeRoutes st a1 a2).a2r v := by
  obtain ⟨hjoin, hinv2, hinv3⟩ := hinv
  rcases mergeRoutes_cases st a1 a2 with ⟨heq, _⟩ | ⟨hii, new, hshape, heq⟩
  · rw [heq]
    exact h
  · rw [heq]
    dsimp only
    have ha2r' : ∀ x,
        new.foldl (fun m addr => fun y => if y = addr then st.a2r a1 else m y)
          st.a2r x = if x ∈ new then st.a2r a1 else st.a2r x :=
      fun x => foldConst_eq (st.a2r a1) new st.a2r x
    obtain ⟨hsub1, hsub2⟩ := shape_subsets hshape
    have hmem_iff : ∀ w, w ∈ addresses →
        (w ∈ new ↔ st.a2r w = st.a2r a1 ∨ st.a2r w = st.a2r a2) := by
      intro w hw
      constructor
      · intro hwn
        rcases shape_mem hshape w hwn with hc | hc
        · exact Or.inl (hinv3 _ w hc).2
        · exact Or.inr (hinv3 _ w hc).2
      · intro hc
        rcases hc with hc | hc
        · exact hsub1 w (hc ▸ (hinv2 w hw).2)
        · exact hsub2 w (hc ▸ (hinv2 w hw).2)
    rw [ha2r' u, ha2r' v]
    by_cases hun : u ∈ new
    · have hvn : v ∈ new := by
        rw [hmem_iff v hv, ← h]
        exact (hmem_iff u hu).mp hun
      rw [if_pos hun, if_pos hvn]
    · have hvn : v ∉ new := by
        intro hc
        exact hun ((hmem_iff u hu).mpr (h ▸ (hmem_iff v hv).mp hc))
      rw [if_neg hun, if_neg hvn]
      exact h

/-- The processed-pair property: if both addresses are still route ends
they share a route. -/
def PairDone (st : CWState) (u v : String) : Prop :=
  isRouteEnd st u = true → isRouteEnd st v = true → st.a2r u = st.a2r v

/-- Processing a pair establishes its property. -/
theorem pairDone_establish (addresses : List String) (st : CWState)
    (hinv : CWInv addresses st) (sv : Saving)
    (hmi : sv.i ∈ addresses) (hmj : sv.j ∈ addresses) :
    PairDone (cwStep st sv) sv.i sv.j := by
  unfold cwStep
  split
  · rename_i hcond
    obtain ⟨hei, hej, hii⟩ := hcond
    intro _ _
    obtain ⟨hjoin, hinv2, hinv3⟩ := hinv
    rcases mergeRoutes_cases st sv.i sv.j with ⟨_, hfail⟩ | ⟨_, new, hshape, heq⟩
    · exfalso
      rcases hfail with hfail | hfail
      · exact hii hfail
      · exact hfail ⟨(isRouteEnd_iff st sv.i).mp hei, (isRouteEnd_iff st sv.j).mp hej⟩
    · rw [heq]
      dsimp only
      have ha2r' : ∀ x,
          new.foldl (fun m addr => fun y => if y = addr then st.a2r sv.i else m y)
            st.a2r x = if x ∈ new then st.a2r sv.i else st.a2r x :=
        fun x => foldConst_eq (st.a2r sv.i) new st.a2r x
      obtain ⟨hsub1, hsub2⟩ := shape_subsets hshape
      have hin : sv.i ∈ new := hsub1 _ (hinv2 sv.i hmi).2
      have hjn : sv.j ∈ new := hsub2 _ (hinv2 sv.j hmj).2
      rw [ha2r' sv.i, ha2r' sv.j, if_pos hin, if_pos hjn]
  · rename_i hcond
    intro hA hB
    by_contra hne
    exact hcond ⟨hA, hB, hne⟩

/-- Processing later pairs preserves the property. -/
theorem pairDone_mono (addresses : List String) (st : CWState)
    (hinv : CWInv addresses st) (sv : Saving) (u v : String)
    (hmi : sv.i ∈ addresses) (hmj : sv.j ∈ addresses)
    (hu : u ∈ addresses) (hv : v ∈ addresses)
    (hP : PairDone st u v) : PairDone (cwStep st sv) u v := by
  unfold cwStep
  split
  · intro hu' hv'
    have hu0 : isRouteEnd st u = true := by
      by_contra hne
      have hnot : ¬ endOf (st.routes.getD (st.a2r u) []) u :=
        fun hc => hne ((isRouteEnd_iff st u).mpr hc)
      exact notEnd_mono addresses st hinv sv.i sv.j u hmi hmj hu hnot
        ((isRouteEnd_iff _ u).mp hu')
    have hv0 : isRouteEnd st v = true := by
      by_contra hne
      have hnot : ¬ endOf (st.routes.getD (st.a2r v) []) v :=
        fun hc => hne ((isRouteEnd_iff st v).mpr hc)
      exact notEnd_mono addresses st hinv sv.i sv.j v hmi hmj hv hnot
        ((isRouteEnd_iff _ v).mp hv')
    exact sameRoute_mono addresses st hinv sv.i sv.j u v hmi hmj hu hv (hP hu0 hv0)
  · exact hP

/-- `PairDone` survives a whole fold over later savings. -/
theorem pairDone_fold (addresses : List String) :
    ∀ (l : List Saving) (st : CWState) (u v : String), CWInv addresses st →
      u ∈ addresses → v ∈ addresses →
      (∀ sv ∈ l, sv.i ∈ addresses ∧ sv.j ∈ addresses) →
      PairDone st u v → PairDone (l.foldl cwStep st) u v := by
  intro l
  induction l with
  | nil => intro st u v _ _ _ _ hP; exact hP
  | cons sv rest ih =>
    intro st u v hinv hu hv hall hP
    simp only [List.foldl_cons]
    have hsv := hall sv (List.mem_cons_self _ _)
    exact ih _ u v (cwStep_inv addresses st hinv sv hsv.1 hsv.2) hu hv
      (fun q hq => hall q (List.mem_cons_of_mem _ hq))
      (pairDone_mono addresses st hinv sv u v hsv.1 hsv.2 hu hv hP)

/-- After the greedy pass, the invariant holds and every processed pair
satisfies its property. -/
theorem cwFold_main (addresses : List String) :
    ∀ (l : List Saving) (st : CWState), CWInv addresses st →
      (∀ sv ∈ l, sv.i ∈ addresses ∧ sv.j ∈ addresses) →
      CWInv addresses (l.foldl cwStep st) ∧
      ∀ sv ∈ l, PairDone (l.foldl cwStep st) sv.i sv.j := by
  intro l
  induction l with
  | nil => intro st hinv _; exact ⟨hinv, by simp⟩
  | cons sv rest ih =>
    intro st hinv hall
    have hsv := hall sv (List.mem_cons_self _ _)
    have hrest : ∀ q ∈ rest, q.i ∈ addresses ∧ q.j ∈ addresses :=
      fun q hq => hall q (List.mem_cons_of_mem _ hq)
    have hst1 := cwStep_inv addresses st hinv sv hsv.1 hsv.2
    obtain ⟨hinvf, hPf⟩ := ih (cwStep st sv) hst1 hrest
    refine ⟨by simpa using hinvf, ?_⟩
    intro q hq
    rcases List.mem_cons.mp hq with rfl | hq'
    · simp only [List.foldl_cons]
      exact pairDone_fold addresses rest (cwStep st q) q.i q.j hst1 hsv.1 hsv.2
        hrest (pairDone_establish addresses st hinv q hsv.1 hsv.2)
    · simpa using hPf q hq'

end ClarkeWrightProgress

section ClarkeWrightFinal

/-- When at most one route is non-empty, the flattened routes equal the
route the final `find` picks. -/
theorem flatten_eq_found :
    ∀ (routes : List (List String)) (r : List String),
      (∀ (k1 k2 : Nat), k1 < routes.length → k2 < routes.length → k1 ≠ k2 →
        routes.getD k1 [] = [] ∨ routes.getD k2 [] = []) →
      routes.find? (fun x => !x.isEmpty) = some r →
      routes.flatten = r := by
  intro routes
  induction routes with
  | nil => intro r _ hf; simp at hf
  | cons h t ih =>
    intro r huniq hf
    by_cases hh : h = []
    · subst hh
      rw [List.find?_cons] at hf
      simp only [List.isEmpty_nil, Bool.not_true] at hf
      have huniq' : ∀ (k1 k2 : Nat), k1 < t.length → k2 < t.length → k1 ≠ k2 →
          t.getD k1 [] = [] ∨ t.getD k2 [] = [] := by
        intro k1 k2 hk1 hk2 hkne
        have := huniq (k1 + 1) (k2 + 1) (by simpa using hk1) (by simpa using hk2)
          (by omega)
        simpa [List.getD_cons_succ] using this
      simpa using ih r huniq' hf
    · rw [List.find?_cons] at hf
      have hpred : (!h.isEmpty) = true := by
        simpa using hh
      rw [hpred] at hf
      rw [Option.some_inj] at hf
      have hrest : ∀ l ∈ t, l = [] := by
        intro l hl
        obtain ⟨k, hk, rfl⟩ := List.mem_iff_getElem.mp hl
        have := huniq 0 (k + 1) (by simp) (by simpa using hk) (by omega)
        rcases this with hc | hc
        · exact absurd (by simpa using hc) hh
        · rw [List.getD_cons_succ, List.getD_eq_getElem?_getD,
            List.getElem?_eq_getElem hk] at hc
          simpa using hc
      have : t.flatten = [] := List.flatten_eq_nil_iff.mpr hrest
      simp [this, hf]

/-- C1 (amended): for every graph with a depot and duplicate-free
address ids and every distance function, `clarkeWrightSavings` returns
a permutation of the address list (including the empty one), and
`nearestInsertion` returns a permutation of the addresses whenever at
least one exists; on an empty address list `nearestInsertion` instead
returns the one-element list holding `undefined` (`addrs.shift()` on an
empty array), not the empty list. -/
theorem construction_returns_address_set :
    (∀ (s : Setup) (d : String → String → ℚ) (dep : Node) (a : String)
      (rest : List String) (r : List (Option String)),
      depotOf s = some dep → addressesOf s = a :: rest →
      nearestInsertion s d = some r → r.Perm ((a :: rest).map some)) ∧
    (∀ (s : Setup) (d : String → String → ℚ) (dep : Node) (r : List String),
      depotOf s = some dep → (addressesOf s).Nodup →
      clarkeWrightSavings s d = some r → r.Perm (addressesOf s)) ∧
    (∀ (s : Setup) (d : String → String → ℚ) (dep : Node),
      depotOf s = some dep → addressesOf s = [] →
      nearestInsertion s d = some [none]) := by
  refine ⟨?_, ?_, ?_⟩
  · intro s d dep a rest r hdep haddr hr
    unfold nearestInsertion at hr
    rw [hdep] at hr
    simp only [Option.map_some'] at hr
    rw [Option.some_inj] at hr
    rw [haddr] at hr
    rw [← hr]
    exact List.Perm.map some (niLoop_perm d dep.id rest [a])
  · intro s d dep r hdep hnd hr
    unfold clarkeWrightSavings at hr
    rw [hdep] at hr
    simp only [Option.map_some'] at hr
    rw [Option.some_inj] at hr
    by_cases h0 : addressesOf s = []
    · rw [if_pos h0] at hr
      rw [← hr, h0]
    · rw [if_neg h0] at hr
      by_cases hlen1 : (addressesOf s).length = 1
      · rw [if_pos hlen1] at hr
        rw [← hr]
      · rw [if_neg hlen1] at hr
        have hfields : ∀ sv ∈ ((pairsAux (addressesOf s)).map
            (fun p => (⟨p.1, p.2, d dep.id p.1 + d dep.id p.2 - d p.1 p.2⟩ : Saving))).mergeSort
              (fun a b => decide (b.value ≤ a.value)),
            sv.i ∈ addressesOf s ∧ sv.j ∈ addressesOf s := by
          intro sv hsv
          have hsv' : sv ∈ (pairsAux (addressesOf s)).map
              (fun p => (⟨p.1, p.2, d dep.id p.1 + d dep.id p.2 - d p.1 p.2⟩ : Saving)) :=
            (List.mergeSort_perm _ _).mem_iff.mp hsv
          obtain ⟨p, hp, rfl⟩ := List.mem_map.mp hsv'
          exact pairsAux_mem (addressesOf s) p hp
        obtain ⟨hinvf, hPf⟩ := cwFold_main (addressesOf s) _ (initCW (addressesOf s))
          (initCW_inv (addressesOf s) hnd) hfields
        rw [show cwFold ((( pairsAux (addressesOf s)).map
            (fun p => (⟨p.1, p.2, d dep.id p.1 + d dep.id p.2 - d p.1 p.2⟩ : Saving))).mergeSort
              (fun a b => decide (b.value ≤ a.value))) (initCW (addressesOf s)) =
            ((( pairsAux (addressesOf s)).map
            (fun p => (⟨p.1, p.2, d dep.id p.1 + d dep.id p.2 - d p.1 p.2⟩ : Saving))).mergeSort
              (fun a b => decide (b.value ≤ a.value))).foldl cwStep
              (initCW (addressesOf s)) from rfl] at hr
        set finalSt := ((( pairsAux (addressesOf s)).map
            (fun p => (⟨p.1, p.2, d dep.id p.1 + d dep.id p.2 - d p.1 p.2⟩ : Saving))).mergeSort
              (fun a b => decide (b.value ≤ a.value))).foldl cwStep
              (initCW (addressesOf s)) with hfinal
        have huniq : ∀ (k1 k2 : Nat), k1 < finalSt.routes.length →
            k2 < finalSt.routes.length → k1 ≠ k2 →
            finalSt.routes.getD k1 [] = [] ∨ finalSt.routes.getD k2 [] = [] := by
          intro k1 k2 hk1 hk2 hkne
          by_contra hcon
          push_neg at hcon
          obtain ⟨hne1, hne2⟩ := hcon
          obtain ⟨u, hu_head⟩ : ∃ u, (finalSt.routes.getD k1 []).head? = some u := by
            cases hcase : finalSt.routes.getD k1 [] with
            | nil => exact absurd hcase hne1
            | cons x xs => exact ⟨x, rfl⟩
          obtain ⟨v, hv_head⟩ : ∃ v, (finalSt.routes.getD k2 []).head? = some v := by
            cases hcase : finalSt.routes.getD k2 [] with
            | nil => exact absurd hcase hne2
            | cons x xs => exact ⟨x, rfl⟩
          have huR : u ∈ finalSt.routes.getD k1 [] :=
            List.mem_of_mem_head? (by rw [hu_head]; rfl)
          have hvR : v ∈ finalSt.routes.getD k2 [] :=
            List.mem_of_mem_head? (by rw [hv_head]; rfl)
          obtain ⟨huaddr, hu_idx⟩ := hinvf.2.2 k1 u huR
          obtain ⟨hvaddr, hv_idx⟩ := hinvf.2.2 k2 v hvR
          have huv : u ≠ v := by
            intro h
            subst h
            exact hkne (hu_idx ▸ hv_idx)
          have hendu : isRouteEnd finalSt u = true := by
            rw [isRouteEnd_iff, hu_idx]
            exact Or.inl hu_head
          have hendv : isRouteEnd finalSt v = true := by
            rw [isRouteEnd_iff, hv_idx]
            exact Or.inl hv_head
          have hcontra : finalSt.a2r u = finalSt.a2r v := by
            rcases pairsAux_covers (addressesOf s) u v huaddr hvaddr huv with hp | hp
            · have hmem : (⟨u, v, d dep.id u + d dep.id v - d u v⟩ : Saving) ∈
                  (pairsAux (addressesOf s)).map
                    (fun p => (⟨p.1, p.2, d dep.id p.1 + d dep.id p.2 - d p.1 p.2⟩ : Saving)) :=
                List.mem_map.mpr ⟨(u, v), hp, rfl⟩
              have hsorted := (List.mergeSort_perm _
                (fun a b => decide (b.value ≤ a.value))).mem_iff.mpr hmem
              exact hPf _ hsorted hendu hendv
            · have hmem : (⟨v, u, d dep.id v + d dep.id u - d v u⟩ : Saving) ∈
                  (pairsAux (addressesOf s)).map
                    (fun p => (⟨p.1, p.2, d dep.id p.1 + d dep.id p.2 - d p.1 p.2⟩ : Saving)) :=
                List.mem_map.mpr ⟨(v, u), hp, rfl⟩
              have hsorted := (List.mergeSort_perm _
                (fun a b => decide (b.value ≤ a.value))).mem_iff.mpr hmem
              exact (hPf _ hsorted hendv hendu).symm
          rw [hu_idx, hv_idx] at hcontra
          exact hkne hcontra
        cases hfind : finalSt.routes.find? (fun x => !x.isEmpty) with
        | none =>
          exfalso
          rw [List.find?_eq_none] at hfind
          have hflat : finalSt.routes.flatten = [] :=
            List.flatten_eq_nil_iff.mpr (fun l hl => by simpa using hfind l hl)
          have hperm := hinvf.1
          rw [hflat] at hperm
          exact h0 (hperm.nil_eq).symm
        | some r0 =>
          rw [hfind] at hr
          have hflat := flatten_eq_found finalSt.routes r0 huniq hfind
          have hperm := hinvf.1
          rw [hflat] at hperm
          rw [← hr]
          exact hperm
  · intro s d dep hdep haddr
    unfold nearestInsertion
    rw [hdep, haddr]
    rfl

/-- Witness for C1's amended theorem: four collinear addresses, both
constructions evaluated, hypotheses discharged by evaluation. -/
theorem construction_returns_address_set_witness :
    (["w", "q", "r", "p"] : List String).Perm
      (addressesOf ⟨[⟨"D", 0, 0, "depot"⟩, ⟨"p", 1, 0, "address"⟩,
        ⟨"q", 2, 0, "address"⟩, ⟨"r", 3, 0, "address"⟩, ⟨"w", 4, 0, "address"⟩],
        [], 1⟩) :=
  construction_returns_address_set.2.1
    ⟨[⟨"D", 0, 0, "depot"⟩, ⟨"p", 1, 0, "address"⟩, ⟨"q", 2, 0, "address"⟩,
      ⟨"r", 3, 0, "address"⟩, ⟨"w", 4, 0, "address"⟩], [], 1⟩
    (fun x y =>
      match x, y with
      | "D", "p" => 1 | "p", "D" => 1
      | "D", "q" => 2 | "q", "D" => 2
      | "D", "r" => 3 | "r", "D" => 3
      | "D", "w" => 4 | "w", "D" => 4
      | "p", "q" => 1 | "q", "p" => 1
      | "p", "r" => 2 | "r", "p" => 2
      | "p", "w" => 3 | "w", "p" => 3
      | "q", "r" => 1 | "r", "q" => 1
      | "q", "w" => 2 | "w", "q" => 2
      | "r", "w" => 3 | "w", "r" => 3
      | _, _ => 0)
    ⟨"D", 0, 0, "depot"⟩ ["w", "q", "r", "p"] (by with_unfolding_all decide)
    (by with_unfolding_all decide) (by with_unfolding_all decide)

/-- Counterexample to C1 as stated: on a graph with an empty address
set, `nearestInsertion` returns the one-element list holding `undefined`
(the result of `addrs.shift()` on an empty array) rather than the empty
list, so its output is not a permutation of the empty address set. -/
theorem nearestInsertion_empty_counterexample :
    nearestInsertion ⟨[⟨"D", 0, 0, "depot"⟩], [], 1⟩ (fun _ _ => 0) = some [none] ∧
    addressesOf ⟨[⟨"D", 0, 0, "depot"⟩], [], 1⟩ = [] ∧
    ¬ (([none] : List (Option String)).Perm ([] : List (Option String))) := by
  refine ⟨?_, ?_, ?_⟩ <;> with_unfolding_all decide

end ClarkeWrightFinal

end LastMile
